import Mathlib

/-!
Verification of the manpage switch extractor (src/parser/manpageParser.py).

The Python module extracts command-line switch tokens from rendered manual
pages with regular expressions, splits the composite bash manual page into
per-builtin sub-documents with a line-oriented state machine, resolves the
manual-section number from the file path, and persists systems, commands and
switches in a sqlite database with find-or-create / replace-on-reparse
semantics.

The embedding below mirrors the source:
* Python `re` patterns are transliterated into an explicit backtracking
  regular-expression engine (`RE` / `matchL`) whose outcome list is ordered by
  backtracking priority, exactly as Python's leftmost/greedy/lazy search is;
  `findAll`, `reSearch` and `reSubEnd` mirror `findall`, `search` and an
  end-anchored `sub`.  The engine is fueled so that every definition is a
  computable structural recursion; the fuel bound is generous for the small
  patterns of the source.
* The sqlite tables become lists of rows in insertion (rowid) order; SELECT
  ... fetchone becomes `List.find?`, DELETE becomes `List.filter`, INSERT
  appends a row with the next rowid.  The UNIQUE constraint on system names
  makes `add_system` partial (`Option`); `sqlite3` raising on a violated
  constraint is modelled by `none`.
-/

/-- Abstract syntax of the regular expressions used by the source.
`alt a b` prefers `a`; `star greedy a` prefers more iterations when `greedy`
and fewer when not (Python `*` vs `*?`); `group i a` records the text matched
by `a` as capture group `i`. -/
inductive RE where
  | cls (p : Char → Bool)
  | eps
  | seq (a b : RE)
  | alt (a b : RE)
  | star (greedy : Bool) (a : RE)
  | group (i : Nat) (a : RE)

/-- Capture environment: latest write for a group index is listed first. -/
abbrev Caps := List (Nat × List Char)

/-- Latest capture recorded for group `i` (Python `m.group(i)`). -/
def capsLookup (caps : Caps) (i : Nat) : Option (List Char) :=
  (caps.find? (fun p => p.1 == i)).map (fun p => p.2)

/-- Concatenation of the images of `f`, kept as its own function so that the
proofs below control its unfolding. -/
def lflat (f : α → List β) : List α → List β
  | [] => []
  | a :: l => f a ++ lflat f l

/-- Backtracking matcher.  `matchL fuel re s caps` returns the list of
possible `(remaining input, captures)` outcomes of matching `re` at the start
of `s`, ordered by backtracking priority, so the head is the match Python
would produce.  A star iteration must consume input (the source's starred
subpatterns all do, as in Python's engine which refuses empty star loops).
The fuel only bounds the recursion depth; `matchFuel` below is generous for
the patterns of the source. -/
def matchL : Nat → RE → List Char → Caps → List (List Char × Caps)
  | 0, _, _, _ => []
  | fuel+1, re, s, caps =>
    match re with
    | .cls p =>
      match s with
      | [] => []
      | c :: rest => if p c then [(rest, caps)] else []
    | .eps => [(s, caps)]
    | .seq a b => lflat (fun o => matchL fuel b o.1 o.2) (matchL fuel a s caps)
    | .alt a b => matchL fuel a s caps ++ matchL fuel b s caps
    | .group i a =>
      (matchL fuel a s caps).map (fun o => (o.1, (i, s.take (s.length - o.1.length)) :: o.2))
    | .star g a =>
      if g then
        lflat (fun o => if o.1.length < s.length then matchL fuel (.star g a) o.1 o.2 else [])
          (matchL fuel a s caps) ++ [(s, caps)]
      else
        (s, caps) :: lflat
          (fun o => if o.1.length < s.length then matchL fuel (.star g a) o.1 o.2 else [])
          (matchL fuel a s caps)

/-- `a?` (greedy when `g`). -/
def reOpt (g : Bool) (a : RE) : RE := if g then .alt a .eps else .alt .eps a

/-- `a+` (greedy when `g`). -/
def rePlus (g : Bool) (a : RE) : RE := .seq a (.star g a)

/-- Syntactic size, used for the fuel bound. -/
def reSize : RE → Nat
  | .cls _ => 1
  | .eps => 1
  | .seq a b => reSize a + reSize b + 1
  | .alt a b => reSize a + reSize b + 1
  | .star _ a => reSize a + 1
  | .group _ a => reSize a + 1

/-- Fuel that comfortably dominates the recursion depth of `matchL` for the
source's patterns on input `s`. -/
def matchFuel (re : RE) (s : List Char) : Nat :=
  (s.length + 2) * (s.length + 2 + reSize re)

/-- All prioritized outcomes of matching `re` at the start of `s`
(the anchored `re.match`). -/
def reMatch (re : RE) (s : List Char) : List (List Char × Caps) :=
  matchL (matchFuel re s) re s []

/-- Whether `re.match` succeeds at the start of the string. -/
def reMatchb (re : RE) (s : String) : Bool := !(reMatch re s.data).isEmpty

/-- Scan of `re.findall`: try each position left to right; on a match record
its captures and resume at the match end (one past it for an empty match). -/
def findAllGo (re : RE) : Nat → List Char → List Caps
  | 0, _ => []
  | fuel+1, s =>
    match (reMatch re s).head? with
    | some o =>
      if o.1.length < s.length then o.2 :: findAllGo re fuel o.1
      else o.2 :: (match s with
        | [] => []
        | _ :: tl => findAllGo re fuel tl)
    | none =>
      match s with
      | [] => []
      | _ :: tl => findAllGo re fuel tl

/-- Python `re.findall`, returning the capture environment of each match. -/
def findAll (re : RE) (s : List Char) : List Caps := findAllGo re (s.length + 1) s

/-- Python `re.search`: the first position, scanning left to right, where the
pattern matches; returns that match's outcome. -/
def reSearchGo (re : RE) : Nat → List Char → Option (List Char × Caps)
  | 0, _ => none
  | fuel+1, s =>
    match (reMatch re s).head? with
    | some o => some o
    | none =>
      match s with
      | [] => none
      | _ :: tl => reSearchGo re fuel tl

/-- Python `re.search` over the whole string. -/
def reSearch (re : RE) (s : List Char) : Option (List Char × Caps) :=
  reSearchGo re (s.length + 1) s

/-- Python `re.sub` for the source's end-anchored patterns (`...$`): replace
the leftmost match that extends to the end of the string; if none exists the
string is unchanged. -/
def reSubEndGo (re : RE) (repl : List Char) : Nat → List Char → List Char
  | 0, s => s
  | fuel+1, s =>
    if (reMatch re s).any (fun o => o.1.isEmpty) then repl
    else match s with
      | [] => []
      | c :: tl => c :: reSubEndGo re repl fuel tl

/-- End-anchored substitution over the whole string. -/
def reSubEnd (re : RE) (repl : List Char) (s : List Char) : List Char :=
  reSubEndGo re repl (s.length + 1) s

/-- Python 2 `\w` on byte strings: `[a-zA-Z0-9_]`. -/
def wordChar (c : Char) : Bool := c.isAlpha || c.isDigit || c == '_'

/-- The source's switch character class `[#\?\w\-\+]`. -/
def flagChar (c : Char) : Bool :=
  c == '#' || c == '?' || wordChar c || c == '-' || c == '+'

/-- Python 2 `\s` on byte strings. -/
def spaceChar (c : Char) : Bool :=
  c == ' ' || c == '\t' || c == '\n' || c == '\r' || c == '\x0b' || c == '\x0c'

/-- Python `.` without DOTALL: any character except a newline. -/
def dotChar (c : Char) : Bool := c != '\n'

/-- `(?:(?:\-{1,2})|(?:\+))`: one or two hyphens (two preferred) or a plus. -/
def dashPlus : RE :=
  .alt (.seq (.cls (fun c => c == '-')) (reOpt true (.cls (fun c => c == '-'))))
       (.cls (fun c => c == '+'))

/-- Body of capture group 1 of the flag regex: `(?:\-{1,2}|\+)[#\?\w\-\+]*`. -/
def flagBody1 : RE := .seq dashPlus (.star true (.cls flagChar))

/-- Body of capture groups 2 and 3: `(?:\-{1,2}|\+)[#\?\w\-\+]+`. -/
def flagBody23 : RE := .seq dashPlus (rePlus true (.cls flagChar))

/-- First alternative of the flag regex of `parse_one_page` (line 334):
`\n?(?:[^\w\-]|\[)(G1)(?:(?:,?\s(G2))|(?:.*?\s(G3)))?`. -/
def branchA : RE :=
  .seq (reOpt true (.cls (fun c => c == '\n')))
  (.seq (.alt (.cls (fun c => !(wordChar c || c == '-'))) (.cls (fun c => c == '[')))
  (.seq (.group 1 flagBody1)
  (reOpt true (.alt
    (.seq (reOpt true (.cls (fun c => c == ','))) (.seq (.cls spaceChar) (.group 2 flagBody23)))
    (.seq (.star false (.cls dotChar)) (.seq (.cls spaceChar) (.group 3 flagBody23)))))))

/-- Body of capture group 4: `(?:\-{1,2}|\+)[^ ]*?`. -/
def bodyG4 : RE := .seq dashPlus (.star false (.cls (fun c => c != ' ')))

/-- Body of capture group 5 (note the literal brace of the source pattern):
`(?:\-{1,2}|\+)}[^ ]*?`. -/
def bodyG5 : RE :=
  .seq dashPlus (.seq (.cls (fun c => c == '}')) (.star false (.cls (fun c => c != ' '))))

/-- Second alternative of the flag regex (line 337):
`(?:[\[\{](G4)[\|,\]\}](?:(G5)[\]\}])?)+`. -/
def branchB : RE :=
  rePlus true (.seq (.cls (fun c => c == '[' || c == '{'))
    (.seq (.group 4 bodyG4)
    (.seq (.cls (fun c => c == '|' || c == ',' || c == ']' || c == '}'))
    (reOpt true (.seq (.group 5 bodyG5) (.cls (fun c => c == ']' || c == '}')))))))

/-- The complete flag regex of `parse_one_page`. -/
def flagRE : RE := .alt branchA branchB

/-- The acceptance class `[\w#\?]` of the check regex. -/
def whqChar (c : Char) : Bool := wordChar c || c == '#' || c == '?'

/-- The check regex of `parse_one_page` (line 345):
`(?:.*?[\w#\?]+.*?)|(?:\-\-)`. -/
def checkRE : RE :=
  .alt (.seq (.star false (.cls dotChar))
             (.seq (rePlus true (.cls whqChar)) (.star false (.cls dotChar))))
       (.seq (.cls (fun c => c == '-')) (.cls (fun c => c == '-')))

/-- `check_regexp.match(flag)` of the source. -/
def checkFlag (tok : String) : Bool := reMatchb checkRE tok

/-- `m.group(i)` as used by `findall`'s tuples: the captured text, or the
empty string for a group that did not participate. -/
def groupStr (caps : Caps) (i : Nat) : String :=
  match capsLookup caps i with
  | some v => String.mk v
  | none => ""

/-- `parse_one_page` (lines 329-360): find all matches of the flag regex,
flatten each match's 5-tuple of groups, keep the entries accepted by the
check regex, and de-duplicate (Python's `list(set(...))`; order of the
result is not meaningful there, `dedup` is the canonical choice here). -/
def parse_one_page (content : String) : List String :=
  ((lflat (fun caps => [1, 2, 3, 4, 5].map (groupStr caps)) (findAll flagRE content.data)).filter
    checkFlag).dedup

/-- The section-number regex of `parse_manpage_number` (line 318):
`.*/man(\d).*`. -/
def manNumRE : RE :=
  .seq (.star true (.cls dotChar))
  (.seq (.cls (fun c => c == '/'))
  (.seq (.cls (fun c => c == 'm'))
  (.seq (.cls (fun c => c == 'a'))
  (.seq (.cls (fun c => c == 'n'))
  (.seq (.group 1 (.cls Char.isDigit))
  (.star true (.cls dotChar)))))))

/-- `parse_manpage_number` (lines 313-326): search the path for the section
regex; on a match return capture group 1, otherwise `None`. -/
def parse_manpage_number (path : String) : Option String :=
  (reSearch manNumRE path.data).map (fun o => groupStr o.2 1)

/-- `/man<digit>` occurs at the head of the list. -/
def manSegAtHead : List Char → Bool
  | a :: b :: c :: d :: e :: _ =>
    a == '/' && b == 'm' && c == 'a' && d == 'n' && e.isDigit
  | _ => false

/-- `/man<digit>` occurs somewhere in the list. -/
def hasManSeg : List Char → Bool
  | [] => false
  | l@(_ :: rest) => manSegAtHead l || hasManSeg rest

/-- The identifier class of the builtin header regex: `[a-zA-Z0-9_\-\+]`. -/
def identChar (c : Char) : Bool :=
  c.isAlpha || c.isDigit || c == '_' || c == '-' || c == '+'

/-- A single space. -/
def spCls : RE := .cls (fun c => c == ' ')

/-- ` {6,8}` (greedy): six spaces then up to two more. -/
def sp68 : RE :=
  .seq spCls (.seq spCls (.seq spCls (.seq spCls (.seq spCls
    (.seq spCls (reOpt true (.seq spCls (reOpt true spCls))))))))

/-- The builtin header regex of `parse_bash_page` (line 370):
`^ {6,8}([a-zA-Z0-9_\-\+]+)`. -/
def builtinRE : RE := .seq sp68 (.group 1 (rePlus true (.cls identChar)))

/-- `builtin_reg.match(line)` followed by `builtin_reg.findall(line)[0]`:
the first word of a 6-8 space indented line, when the regex matches. -/
def builtinHeadMatch (line : String) : Option String :=
  (reMatch builtinRE line.data).head?.map (fun o => groupStr o.2 1)

/-- `section_end.match(line)` for `^[A-Z]` (line 372). -/
def sectionEndMatch (line : String) : Bool :=
  match line.data with
  | c :: _ => c.isUpper
  | [] => false

/-- Python 2 `str.splitlines` worker: split on `\n`, `\r\n` or `\r`, no
terminator kept, no trailing empty line for a trailing terminator. -/
def splitlinesGo : List Char → List Char → List (List Char)
  | [], acc => [acc.reverse]
  | c :: rest, acc =>
    if c == '\n' then
      acc.reverse :: (if rest.isEmpty then [] else splitlinesGo rest [])
    else if c == '\r' then
      match rest with
      | [] => [acc.reverse]
      | d :: rest2 =>
        if d == '\n' then
          acc.reverse :: (if rest2.isEmpty then [] else splitlinesGo rest2 [])
        else
          acc.reverse :: splitlinesGo (d :: rest2) []
    else splitlinesGo rest (c :: acc)

/-- Python 2 `str.splitlines`. -/
def splitlines (s : List Char) : List (List Char) :=
  if s.isEmpty then [] else splitlinesGo s []

/-- Python dict assignment `d[k] = v`: update in place if the key exists,
otherwise add the binding. -/
def dictSet (d : List (String × String)) (k v : String) : List (String × String) :=
  if d.any (fun p => p.1 == k) then d.map (fun p => if p.1 == k then (k, v) else p)
  else d ++ [(k, v)]

/-- Python dict lookup. -/
def dictGet (d : List (String × String)) (k : String) : Option String :=
  (d.find? (fun p => p.1 == k)).map (fun p => p.2)

/-- The loop state of `parse_bash_page` (lines 374-402): the `builtins` and
implicit broken-out-of-the-loop flags, `current_builtin`, `bash_man` and the
`mans` dict. -/
structure BashState where
  builtinsFlag : Bool
  currentBuiltin : String
  bashMan : String
  mans : List (String × String)
  stopped : Bool
deriving Repr, DecidableEq

/-- Initial loop state of `parse_bash_page`. -/
def bashInit : BashState := ⟨false, "", "", [], false⟩

/-- One iteration of the `parse_bash_page` loop body on one line.  Before
the `SHELL BUILTIN COMMANDS` header, lines accumulate into `bash_man`; at the
header, `mans['bash']` is set.  Afterwards a 6-8 space indented known command
name starts a new sub-document seeded with `first_word` itself; a line whose
first character is an uppercase letter (when the builtin regex did not match)
breaks out of the loop; any other line is appended to the active
sub-document, if any. -/
def bashStep (command_list : List String) (st : BashState) (line : String) : BashState :=
  if st.stopped then st
  else if !st.builtinsFlag then
    if line == "SHELL BUILTIN COMMANDS" then
      { st with builtinsFlag := true, mans := dictSet st.mans "bash" st.bashMan }
    else
      { st with bashMan := st.bashMan ++ line }
  else
    match builtinHeadMatch line with
    | some w =>
      if command_list.contains w then
        { st with currentBuiltin := w, mans := dictSet st.mans w w }
      else if st.currentBuiltin != "" then
        { st with mans := dictSet st.mans st.currentBuiltin (((dictGet st.mans st.currentBuiltin).getD "") ++ line) }
      else st
    | none =>
      if sectionEndMatch line then { st with stopped := true }
      else if st.currentBuiltin != "" then
        { st with mans := dictSet st.mans st.currentBuiltin (((dictGet st.mans st.currentBuiltin).getD "") ++ line) }
      else st

/-- The `mans` mapping built by `parse_bash_page` (lines 363-402), before the
per-command tokenizing and storing loop. -/
def parse_bash_page_mans (content : String) (command_list : List String) :
    List (String × String) :=
  (((splitlines content.data).map (fun l => String.mk l)).foldl
    (bashStep command_list) bashInit).mans

/-- A row of the `system` table. -/
structure SystemRow where
  id : Nat
  name : String
deriving Repr, DecidableEq

/-- A row of the `command` table. -/
structure CommandRow where
  id : Nat
  manpage_name : Option String
  command : String
  man_group : Option String
  system_id : Nat
deriving Repr, DecidableEq

/-- A row of the `switch` table. -/
structure SwitchRow where
  id : Nat
  switch : String
  command_id : Nat
deriving Repr, DecidableEq

/-- The sqlite database: rows in rowid (insertion) order plus the next rowid
of each table.  `man_group` is stored as text (`str(group)` in the source);
the integer `1` passed by `parse_bash_page` compares equal to the stored text
`'1'` under sqlite's TEXT affinity, so groups are uniformly `Option String`
here. -/
structure DB where
  systems : List SystemRow
  commands : List CommandRow
  switches : List SwitchRow
  nextSystemId : Nat
  nextCommandId : Nat
  nextSwitchId : Nat
deriving Repr, DecidableEq

/-- A database with empty tables. -/
def emptyDB : DB := ⟨[], [], [], 1, 1, 1⟩

/-- `find_system` (lines 109-117): first row with the given name. -/
def find_system (db : DB) (sys_name : String) : Option Nat :=
  (db.systems.find? (fun r => r.name == sys_name)).map (fun r => r.id)

/-- `add_system` (lines 96-106): INSERT INTO system(name).  The `name` column
is UNIQUE, so inserting a duplicate raises sqlite3.IntegrityError, modelled
by `none`. -/
def add_system (db : DB) (sys_name : String) : Option (Nat × DB) :=
  if db.systems.any (fun r => r.name == sys_name) then none
  else some (db.nextSystemId,
    { db with systems := db.systems ++ [⟨db.nextSystemId, sys_name⟩],
              nextSystemId := db.nextSystemId + 1 })

/-- `handle_system` (lines 120-131): find the system by name, else add it. -/
def handle_system (db : DB) (sys_name : String) : Option (Nat × DB) :=
  match find_system db sys_name with
  | some i => some (i, db)
  | none => add_system db sys_name

/-- The WHERE clause of `find_command` (lines 153-170): when `group` is NULL
the lookup is by `(command, system_id)` only, otherwise by
`(command, man_group, system_id)`. -/
def cmdPred (command : String) (group : Option String) (os_id : Nat) (r : CommandRow) :
    Bool :=
  match group with
  | none => r.command == command && r.system_id == os_id
  | some g => r.command == command && r.man_group == some g && r.system_id == os_id

/-- `find_command` (lines 153-170): first row matching the identity tuple. -/
def find_command (db : DB) (command : String) (group : Option String) (os_id : Nat) :
    Option Nat :=
  (db.commands.find? (cmdPred command group os_id)).map (fun r => r.id)

/-- `add_command` (lines 135-150): INSERT INTO command, returning lastrowid. -/
def add_command (db : DB) (manpage_name : Option String) (command : String)
    (group : Option String) (os_id : Nat) : Nat × DB :=
  (db.nextCommandId,
    { db with commands := db.commands ++ [⟨db.nextCommandId, manpage_name, command, group, os_id⟩],
              nextCommandId := db.nextCommandId + 1 })

/-- `delete_associated_switches` (lines 223-231): DELETE FROM switch WHERE
command_id matches. -/
def delete_associated_switches (db : DB) (command_id : Nat) : DB :=
  { db with switches := db.switches.filter (fun s => s.command_id != command_id) }

/-- `handle_command` (lines 173-189): find the command by its identity tuple;
if present, purge its switches and reuse its id, otherwise insert it. -/
def handle_command (db : DB) (manpage_name : Option String) (command : String)
    (group : Option String) (os_id : Nat) : Nat × DB :=
  match find_command db command group os_id with
  | none => add_command db manpage_name command group os_id
  | some i => (i, delete_associated_switches db i)

/-- `add_switch` (lines 211-220): INSERT INTO switch. -/
def add_switch (db : DB) (switch : String) (com_id : Nat) : DB :=
  { db with switches := db.switches ++ [⟨db.nextSwitchId, switch, com_id⟩],
            nextSwitchId := db.nextSwitchId + 1 }

/-- `put_manpage_into_db` (lines 420-427). -/
def put_manpage_into_db (db : DB) (os_id : Nat) (man_name : Option String)
    (command : String) (number : Option String) (flags_list : List String) : DB :=
  let r := handle_command db man_name command number os_id
  flags_list.foldl (fun d f => add_switch d f r.1) r.2

/-- The storing loop of `parse_bash_page` (lines 404-407): every sub-document
is tokenized and stored with `man_group = 1`. -/
def parse_bash_page (content : String) (command_list : List String) (os_id : Nat)
    (db : DB) : DB :=
  (parse_bash_page_mans content command_list).foldl
    (fun d kv => put_manpage_into_db d os_id none kv.1 (some "1") (parse_one_page kv.2)) db

/-- `re.match("\.so", check_file)` of line 465. -/
def soRE : RE :=
  .seq (.cls (fun c => c == '.')) (.seq (.cls (fun c => c == 's')) (.cls (fun c => c == 'o')))

/-- The path segment class `[-\.\w]` of the substitution regexes. -/
def segChar (c : Char) : Bool := c == '-' || c == '.' || wordChar c

/-- `\w{1,5}` (greedy). -/
def w15 : RE :=
  .seq (.cls wordChar) (reOpt true (.seq (.cls wordChar) (reOpt true
    (.seq (.cls wordChar) (reOpt true (.seq (.cls wordChar) (reOpt true (.cls wordChar))))))))

/-- The stub-name regex of line 469: `.*/(.*?)\.\w{1,5}\.gz`. -/
def regNameRE : RE :=
  .seq (.star true (.cls dotChar))
  (.seq (.cls (fun c => c == '/'))
  (.seq (.group 1 (.star false (.cls dotChar)))
  (.seq (.cls (fun c => c == '.'))
  (.seq w15
  (.seq (.cls (fun c => c == '.'))
  (.seq (.cls (fun c => c == 'g')) (.cls (fun c => c == 'z'))))))))

/-- The redirect-target regex of line 479: `.* (.*)`. -/
def newFileRE : RE :=
  .seq (.star true (.cls dotChar))
  (.seq (.cls (fun c => c == ' ')) (.group 1 (.star true (.cls dotChar))))

/-- `.*/.*` of line 494. -/
def slashAnyRE : RE :=
  .seq (.star true (.cls dotChar)) (.seq (.cls (fun c => c == '/')) (.star true (.cls dotChar)))

/-- `/[-\.\w]*/[-\.\w]*$` of line 495 (without the anchor, which `reSubEnd`
provides). -/
def twoSegEndRE : RE :=
  .seq (.cls (fun c => c == '/')) (.seq (.star true (.cls segChar))
    (.seq (.cls (fun c => c == '/')) (.star true (.cls segChar))))

/-- `/[-\.\w]*$` of line 497 (without the anchor). -/
def oneSegEndRE : RE := .seq (.cls (fun c => c == '/')) (.star true (.cls segChar))

/-- The `.so` redirection handling of `parse_man_pages` (lines 462-497).  On
a stub the target name of the file is parsed from the path, the redirect
target is parsed from the content's first space-separated tail, `.gz` is
appended and the last one or two path segments are replaced.  When the
target search finds nothing, `new_file` stays `None` and line 494 calls
`re.match` on `None`, which raises TypeError; the `.error` constructor
models that exception escaping. -/
def so_redirect (file_path check_file : String) : Except String (Option String × String) :=
  if reMatchb soRE check_file then
    let man_name := (reSearch regNameRE file_path.data).map (fun o => groupStr o.2 1)
    match (reSearch newFileRE check_file.data).map (fun o => groupStr o.2 1) with
    | none => .error "TypeError: expected string or buffer"
    | some nf =>
      let new_file := nf ++ ".gz"
      if reMatchb slashAnyRE new_file then
        .ok (man_name, String.mk (reSubEnd twoSegEndRE ("/" ++ new_file).data file_path.data))
      else
        .ok (man_name, String.mk (reSubEnd oneSegEndRE ("/" ++ new_file).data file_path.data))
  else .ok (none, file_path)

/-! ### Generic list and engine lemmas -/

theorem lflat_nil {f : α → List β} : lflat f [] = [] := rfl

theorem lflat_cons {f : α → List β} {a : α} {l : List α} :
    lflat f (a :: l) = f a ++ lflat f l := rfl

theorem mem_lflat {f : α → List β} {b : β} : ∀ {l : List α}, b ∈ lflat f l ↔ ∃ a ∈ l, b ∈ f a := by
  intro l
  induction l with
  | nil => simp [lflat]
  | cons x l ih => simp [lflat, ih]

theorem take_append_self (t u : List α) : (t ++ u).take t.length = t := by
  induction t with
  | nil => simp
  | cons c t ih => simp [ih]

theorem lflat_sublist {f g : α → List β} {l1 l2 : List α} (h : l1.Sublist l2)
    (hf : ∀ a, (f a).Sublist (g a)) : (lflat f l1).Sublist (lflat g l2) := by
  induction h with
  | slnil => simp [lflat]
  | cons a h ih =>
    rw [lflat_cons]
    exact ih.trans (List.sublist_append_right _ _)
  | cons₂ a h ih => simpa [lflat] using (hf a).append ih

theorem matchL_zero {re : RE} {s : List Char} {caps : Caps} : matchL 0 re s caps = [] := rfl

theorem matchL_cls_elim {f : Nat} {p : Char → Bool} {s : List Char} {caps : Caps}
    {o : List Char × Caps} (h : o ∈ matchL f (.cls p) s caps) :
    ∃ c rest, s = c :: rest ∧ p c = true ∧ o = (rest, caps) := by
  cases f with
  | zero => simp [matchL] at h
  | succ g =>
    cases s with
    | nil => simp [matchL] at h
    | cons c rest =>
      by_cases hp : p c = true
      · simp [matchL, hp] at h
        exact ⟨c, rest, rfl, hp, h⟩
      · simp [matchL, hp] at h

theorem matchL_eps_elim {f : Nat} {s : List Char} {caps : Caps}
    {o : List Char × Caps} (h : o ∈ matchL f .eps s caps) : o = (s, caps) := by
  cases f with
  | zero => simp [matchL] at h
  | succ g => simpa [matchL] using h

theorem matchL_seq_elim {f : Nat} {a b : RE} {s : List Char} {caps : Caps}
    {o : List Char × Caps} (h : o ∈ matchL f (.seq a b) s caps) :
    ∃ g m, f = g + 1 ∧ m ∈ matchL g a s caps ∧ o ∈ matchL g b m.1 m.2 := by
  cases f with
  | zero => simp [matchL] at h
  | succ g =>
    simp only [matchL] at h
    obtain ⟨m, hm, hb⟩ := mem_lflat.mp h
    exact ⟨g, m, rfl, hm, hb⟩

theorem matchL_alt_elim {f : Nat} {a b : RE} {s : List Char} {caps : Caps}
    {o : List Char × Caps} (h : o ∈ matchL f (.alt a b) s caps) :
    ∃ g, f = g + 1 ∧ (o ∈ matchL g a s caps ∨ o ∈ matchL g b s caps) := by
  cases f with
  | zero => simp [matchL] at h
  | succ g =>
    simp only [matchL, List.mem_append] at h
    exact ⟨g, rfl, h⟩

theorem matchL_group_elim {f : Nat} {i : Nat} {a : RE} {s : List Char} {caps : Caps}
    {o : List Char × Caps} (h : o ∈ matchL f (.group i a) s caps) :
    ∃ g m, f = g + 1 ∧ m ∈ matchL g a s caps ∧
      o = (m.1, (i, s.take (s.length - m.1.length)) :: m.2) := by
  cases f with
  | zero => simp [matchL] at h
  | succ g =>
    simp only [matchL, List.mem_map] at h
    obtain ⟨m, hm, rfl⟩ := h
    exact ⟨g, m, rfl, hm, rfl⟩

theorem matchL_star_elim {f : Nat} {gr : Bool} {a : RE} {s : List Char} {caps : Caps}
    {o : List Char × Caps} (h : o ∈ matchL f (.star gr a) s caps) :
    o = (s, caps) ∨ ∃ g m, f = g + 1 ∧ m ∈ matchL g a s caps ∧ m.1.length < s.length ∧
      o ∈ matchL g (.star gr a) m.1 m.2 := by
  cases f with
  | zero => simp [matchL] at h
  | succ g =>
    have hiter : o ∈ lflat
        (fun o => if o.1.length < s.length then matchL g (.star gr a) o.1 o.2 else [])
        (matchL g a s caps) → o = (s, caps) ∨ ∃ g' m, g + 1 = g' + 1 ∧
          m ∈ matchL g' a s caps ∧ m.1.length < s.length ∧
          o ∈ matchL g' (.star gr a) m.1 m.2 := by
      intro hin
      obtain ⟨m, hm, ho⟩ := mem_lflat.mp hin
      by_cases hl : m.1.length < s.length
      · simp only [hl, if_true] at ho
        exact Or.inr ⟨g, m, rfl, hm, hl, ho⟩
      · simp [hl] at ho
    cases gr with
    | true =>
      have hh : matchL (g+1) (RE.star true a) s caps =
          lflat (fun o => if o.1.length < s.length then matchL g (RE.star true a) o.1 o.2 else [])
            (matchL g a s caps) ++ [(s, caps)] := rfl
      rw [hh] at h
      rcases List.mem_append.mp h with h | h
      · exact hiter h
      · exact Or.inl (by simpa using h)
    | false =>
      have hh : matchL (g+1) (RE.star false a) s caps =
          (s, caps) :: lflat
            (fun o => if o.1.length < s.length then matchL g (RE.star false a) o.1 o.2 else [])
            (matchL g a s caps) := rfl
      rw [hh] at h
      rcases List.mem_cons.mp h with h | h
      · exact Or.inl h
      · exact hiter h

/-- Every character class occurring in `re` is contained in `p`. -/
def clsAll (p : Char → Bool) : RE → Prop
  | .cls q => ∀ c, q c = true → p c = true
  | .eps => True
  | .seq a b => clsAll p a ∧ clsAll p b
  | .alt a b => clsAll p a ∧ clsAll p b
  | .star _ a => clsAll p a
  | .group _ a => clsAll p a

theorem clsAll_true : ∀ re : RE, clsAll (fun _ => true) re := by
  intro re
  induction re with
  | cls q => intro c _; rfl
  | eps => trivial
  | seq a b iha ihb => exact ⟨iha, ihb⟩
  | alt a b iha ihb => exact ⟨iha, ihb⟩
  | star g a iha => exact iha
  | group i a iha => exact iha

/-- Soundness of consumption: an outcome's remaining input is a suffix of the
input, and every consumed character lies in every class bound of the
pattern. -/
theorem matchL_consumed {p : Char → Bool} :
    ∀ (f : Nat) (re : RE), clsAll p re → ∀ (s : List Char) (caps : Caps)
      (o : List Char × Caps), o ∈ matchL f re s caps →
      ∃ t, s = t ++ o.1 ∧ ∀ c ∈ t, p c = true := by
  intro f
  induction f using Nat.strong_induction_on with
  | _ f ih =>
    intro re hcls s caps o ho
    match re with
    | .cls q =>
      obtain ⟨c, rest, rfl, hpc, rfl⟩ := matchL_cls_elim ho
      exact ⟨[c], rfl, by simpa using hcls c hpc⟩
    | .eps =>
      rw [matchL_eps_elim ho]
      exact ⟨[], rfl, by simp⟩
    | .seq a b =>
      obtain ⟨g, m, rfl, hma, hmb⟩ := matchL_seq_elim ho
      obtain ⟨t1, h1, hp1⟩ := ih g (Nat.lt_succ_self g) a hcls.1 _ _ _ hma
      obtain ⟨t2, h2, hp2⟩ := ih g (Nat.lt_succ_self g) b hcls.2 _ _ _ hmb
      refine ⟨t1 ++ t2, ?_, ?_⟩
      · rw [h1, h2, List.append_assoc]
      · intro c hc
        rcases List.mem_append.mp hc with hc | hc
        · exact hp1 c hc
        · exact hp2 c hc
    | .alt a b =>
      obtain ⟨g, rfl, hor⟩ := matchL_alt_elim ho
      rcases hor with hm | hm
      · exact ih g (Nat.lt_succ_self g) a hcls.1 _ _ _ hm
      · exact ih g (Nat.lt_succ_self g) b hcls.2 _ _ _ hm
    | .group i a =>
      obtain ⟨g, m, rfl, hm, rfl⟩ := matchL_group_elim ho
      exact ih g (Nat.lt_succ_self g) a hcls s caps m hm
    | .star gr a =>
      rcases matchL_star_elim ho with rfl | ⟨g, m, rfl, hm, _, hrest⟩
      · exact ⟨[], rfl, by simp⟩
      · obtain ⟨t1, h1, hp1⟩ := ih g (Nat.lt_succ_self g) a hcls _ _ _ hm
        obtain ⟨t2, h2, hp2⟩ := ih g (Nat.lt_succ_self g) (.star gr a) hcls _ _ _ hrest
        refine ⟨t1 ++ t2, ?_, ?_⟩
        · rw [h1, h2, List.append_assoc]
        · intro c hc
          rcases List.mem_append.mp hc with hc | hc
          · exact hp1 c hc
          · exact hp2 c hc

/-- The remaining input of an outcome is no longer than the input. -/
theorem matchL_length_le {f : Nat} {re : RE} {s : List Char} {caps : Caps}
    {o : List Char × Caps} (h : o ∈ matchL f re s caps) : o.1.length ≤ s.length := by
  obtain ⟨t, ht, -⟩ := matchL_consumed f re (clsAll_true re) s caps o h
  rw [ht]
  simp

/-- Sufficient syntactic condition for: every match of `re` is nonempty and
begins with a character of `p`. -/
def reFirst (p : Char → Bool) : RE → Prop
  | .cls q => ∀ c, q c = true → p c = true
  | .eps => False
  | .seq a _ => reFirst p a
  | .alt a b => reFirst p a ∧ reFirst p b
  | .star _ _ => False
  | .group _ a => reFirst p a

/-- An outcome of a `reFirst p` pattern consumes at least one character and
the first character of the input satisfies `p`. -/
theorem matchL_first {p : Char → Bool} :
    ∀ (f : Nat) (re : RE), reFirst p re → ∀ (s : List Char) (caps : Caps)
      (o : List Char × Caps), o ∈ matchL f re s caps →
      ∃ c rest, s = c :: rest ∧ p c = true ∧ o.1.length < s.length := by
  intro f
  induction f using Nat.strong_induction_on with
  | _ f ih =>
    intro re hfirst s caps o ho
    match re with
    | .cls q =>
      obtain ⟨c, rest, rfl, hpc, rfl⟩ := matchL_cls_elim ho
      exact ⟨c, rest, rfl, hfirst c hpc, by simp⟩
    | .eps => exact absurd hfirst (by simp [reFirst])
    | .seq a b =>
      obtain ⟨g, m, rfl, hma, hmb⟩ := matchL_seq_elim ho
      obtain ⟨c, rest, rfl, hpc, hlen⟩ := ih g (Nat.lt_succ_self g) a hfirst _ _ _ hma
      have hle := matchL_length_le hmb
      exact ⟨c, rest, rfl, hpc, lt_of_le_of_lt hle hlen⟩
    | .alt a b =>
      obtain ⟨g, rfl, hor⟩ := matchL_alt_elim ho
      rcases hor with hm | hm
      · exact ih g (Nat.lt_succ_self g) a hfirst.1 _ _ _ hm
      · exact ih g (Nat.lt_succ_self g) b hfirst.2 _ _ _ hm
    | .group i a =>
      obtain ⟨g, m, rfl, hm, rfl⟩ := matchL_group_elim ho
      exact ih g (Nat.lt_succ_self g) a hfirst s caps m hm
    | .star gr a => exact absurd hfirst (by simp [reFirst])

/-- More fuel only refines the outcome list: the outcomes at smaller fuel
form a sublist of those at larger fuel. -/
theorem matchL_mono_succ :
    ∀ (f : Nat) (re : RE) (s : List Char) (caps : Caps),
      (matchL f re s caps).Sublist (matchL (f+1) re s caps) := by
  intro f
  induction f with
  | zero => intro re s caps; simp [matchL]
  | succ f ih =>
    intro re s caps
    match re with
    | .cls p =>
      cases s with
      | nil => simp [matchL]
      | cons c rest => by_cases hp : p c = true <;> simp [matchL, hp]
    | .eps => simp [matchL]
    | .seq a b =>
      exact lflat_sublist (ih a s caps) (fun o => ih b o.1 o.2)
    | .alt a b =>
      exact (ih a s caps).append (ih b s caps)
    | .group i a =>
      exact (ih a s caps).map _
    | .star gr a =>
      have hiter : (lflat (fun o => if o.1.length < s.length then matchL f (.star gr a) o.1 o.2 else [])
            (matchL f a s caps)).Sublist
          (lflat (fun o => if o.1.length < s.length then matchL (f+1) (.star gr a) o.1 o.2 else [])
            (matchL (f+1) a s caps)) := by
        refine lflat_sublist (ih a s caps) (fun o => ?_)
        by_cases hl : o.1.length < s.length
        · simpa [hl] using ih (.star gr a) o.1 o.2
        · simp [hl]
      cases gr with
      | true =>
        have e1 : matchL (f+1) (RE.star true a) s caps =
            lflat (fun o => if o.1.length < s.length then matchL f (RE.star true a) o.1 o.2 else [])
              (matchL f a s caps) ++ [(s, caps)] := rfl
        have e2 : matchL (f+2) (RE.star true a) s caps =
            lflat (fun o => if o.1.length < s.length then matchL (f+1) (RE.star true a) o.1 o.2 else [])
              (matchL (f+1) a s caps) ++ [(s, caps)] := rfl
        rw [e1, e2]
        exact hiter.append (List.Sublist.refl _)
      | false =>
        have e1 : matchL (f+1) (RE.star false a) s caps =
            (s, caps) :: lflat (fun o => if o.1.length < s.length then matchL f (RE.star false a) o.1 o.2 else [])
              (matchL f a s caps) := rfl
        have e2 : matchL (f+2) (RE.star false a) s caps =
            (s, caps) :: lflat (fun o => if o.1.length < s.length then matchL (f+1) (RE.star false a) o.1 o.2 else [])
              (matchL (f+1) a s caps) := rfl
        rw [e1, e2]
        exact hiter.cons₂ _

theorem matchL_mono {f g : Nat} (h : f ≤ g) (re : RE) (s : List Char) (caps : Caps) :
    (matchL f re s caps).Sublist (matchL g re s caps) := by
  induction h with
  | refl => exact List.Sublist.refl _
  | step h ih => exact ih.trans (matchL_mono_succ _ re s caps)

theorem matchL_mono_mem {f g : Nat} (h : f ≤ g) {re : RE} {s : List Char} {caps : Caps}
    {o : List Char × Caps} (ho : o ∈ matchL f re s caps) : o ∈ matchL g re s caps :=
  (matchL_mono h re s caps).subset ho

/-! Introduction lemmas: building concrete matches. -/

theorem matchL_cls_intro {f : Nat} {p : Char → Bool} {c : Char} {rest : List Char}
    {caps : Caps} (hp : p c = true) : (rest, caps) ∈ matchL (f+1) (.cls p) (c :: rest) caps := by
  simp [matchL, hp]

theorem matchL_seq_intro {f : Nat} {a b : RE} {s : List Char} {caps : Caps}
    {m o : List Char × Caps} (hm : m ∈ matchL f a s caps) (ho : o ∈ matchL f b m.1 m.2) :
    o ∈ matchL (f+1) (.seq a b) s caps := by
  have e : matchL (f+1) (RE.seq a b) s caps =
      lflat (fun o => matchL f b o.1 o.2) (matchL f a s caps) := rfl
  rw [e, mem_lflat]
  exact ⟨m, hm, ho⟩

theorem matchL_star_base {f : Nat} {gr : Bool} {a : RE} {s : List Char} {caps : Caps} :
    (s, caps) ∈ matchL (f+1) (.star gr a) s caps := by
  cases gr with
  | true =>
    have e : matchL (f+1) (RE.star true a) s caps =
        lflat (fun o => if o.1.length < s.length then matchL f (RE.star true a) o.1 o.2 else [])
          (matchL f a s caps) ++ [(s, caps)] := rfl
    rw [e]
    simp
  | false =>
    have e : matchL (f+1) (RE.star false a) s caps =
        (s, caps) :: lflat (fun o => if o.1.length < s.length then matchL f (RE.star false a) o.1 o.2 else [])
          (matchL f a s caps) := rfl
    rw [e]
    simp

theorem matchL_group_intro {f : Nat} {i : Nat} {a : RE} {s : List Char} {caps : Caps}
    {m : List Char × Caps} (hm : m ∈ matchL f a s caps) :
    (m.1, (i, s.take (s.length - m.1.length)) :: m.2) ∈ matchL (f+1) (.group i a) s caps := by
  have e : matchL (f+1) (RE.group i a) s caps =
      (matchL f a s caps).map (fun o => (o.1, (i, s.take (s.length - o.1.length)) :: o.2)) := rfl
  rw [e, List.mem_map]
  exact ⟨m, hm, rfl⟩

/-- First character of a switch token: a hyphen or a plus sign. -/
def dpChar (c : Char) : Bool := c == '-' || c == '+'

/-- Not a space character (the bracket-context classes of the flag regex). -/
def noSpaceChar (c : Char) : Bool := c != ' '

/-- Invariant of a captured value of the flag regex: nonempty, begins with a
hyphen or plus, contains no space. -/
def CapVal (v : List Char) : Prop :=
  (∃ c t, v = c :: t ∧ (c = '-' ∨ c = '+')) ∧ ∀ c ∈ v, c ≠ ' '

/-- The invariant holds of every recorded capture. -/
def CapOK (caps : Caps) : Prop := ∀ p ∈ caps, CapVal p.2

/-- Every capture group of `re` has a body whose matches begin with a hyphen
or plus and consume no space. -/
def groupsInv : RE → Prop
  | .cls _ => True
  | .eps => True
  | .seq a b => groupsInv a ∧ groupsInv b
  | .alt a b => groupsInv a ∧ groupsInv b
  | .star _ a => groupsInv a
  | .group _ a => groupsInv a ∧ reFirst dpChar a ∧ clsAll noSpaceChar a

theorem matchL_capOK :
    ∀ (f : Nat) (re : RE), groupsInv re → ∀ (s : List Char) (caps : Caps)
      (o : List Char × Caps), CapOK caps → o ∈ matchL f re s caps → CapOK o.2 := by
  intro f
  induction f using Nat.strong_induction_on with
  | _ f ih =>
    intro re hinv s caps o hcaps ho
    match re with
    | .cls q =>
      obtain ⟨c, rest, rfl, hpc, rfl⟩ := matchL_cls_elim ho
      exact hcaps
    | .eps =>
      rw [matchL_eps_elim ho]
      exact hcaps
    | .seq a b =>
      obtain ⟨g, m, rfl, hma, hmb⟩ := matchL_seq_elim ho
      exact ih g (Nat.lt_succ_self g) b hinv.2 _ _ _
        (ih g (Nat.lt_succ_self g) a hinv.1 _ _ _ hcaps hma) hmb
    | .alt a b =>
      obtain ⟨g, rfl, hor⟩ := matchL_alt_elim ho
      rcases hor with hm | hm
      · exact ih g (Nat.lt_succ_self g) a hinv.1 _ _ _ hcaps hm
      · exact ih g (Nat.lt_succ_self g) b hinv.2 _ _ _ hcaps hm
    | .star gr a =>
      rcases matchL_star_elim ho with rfl | ⟨g, m, rfl, hm, _, hrest⟩
      · exact hcaps
      · exact ih g (Nat.lt_succ_self g) (.star gr a) hinv _ _ _
          (ih g (Nat.lt_succ_self g) a hinv _ _ _ hcaps hm) hrest
    | .group i a =>
      obtain ⟨g, m, rfl, hm, rfl⟩ := matchL_group_elim ho
      have hmcaps : CapOK m.2 := ih g (Nat.lt_succ_self g) a hinv.1 _ _ _ hcaps hm
      obtain ⟨t, hts, htp⟩ := matchL_consumed g a hinv.2.2 s caps m hm
      obtain ⟨c, rest, hcr, hdp, hlen⟩ := matchL_first g a hinv.2.1 s caps m hm
      have htake : s.take (s.length - m.1.length) = t := by
        rw [hts]
        have hl : (t ++ m.1).length - m.1.length = t.length := by simp
        rw [hl]
        exact take_append_self t m.1
      have htne : t ≠ [] := by
        intro he
        rw [he] at hts
        simp at hts
        rw [hts] at hlen
        exact absurd hlen (lt_irrefl _)
      intro p hp
      rcases List.mem_cons.mp hp with rfl | hp
      · refine ⟨?_, ?_⟩
        · rcases t with _ | ⟨c0, t0⟩
          · exact absurd rfl htne
          · refine ⟨c0, t0, by simp [htake], ?_⟩
            have : c0 = c := by
              rw [hcr] at hts
              exact (List.cons.injEq _ _ _ _ ▸ hts).1.symm
            rw [this]
            rcases (by simpa [dpChar] using hdp : c = '-' ∨ c = '+') with h | h
            · exact Or.inl h
            · exact Or.inr h
        · intro c2 hc2
          rw [htake] at hc2
          have := htp c2 hc2
          simpa [noSpaceChar, bne_iff_ne] using this
      · exact hmcaps p hp

theorem groupsInv_flagRE : groupsInv flagRE := by
  simp only [flagRE, branchA, branchB, flagBody1, flagBody23, bodyG4, bodyG5, dashPlus, reOpt,
    rePlus, if_true, groupsInv, reFirst, clsAll]
  repeat' apply And.intro
  all_goals try trivial
  all_goals intro c hc
  all_goals try exact hc
  all_goals try (rw [beq_iff_eq] at hc; subst hc; decide)
  all_goals by_cases h : c = ' '
  all_goals try (subst h; revert hc; decide)
  all_goals simp [noSpaceChar, bne_iff_ne]
  all_goals exact h

theorem mem_of_head? {l : List α} {a : α} (h : l.head? = some a) : a ∈ l := by
  cases l with
  | nil => simp at h
  | cons x xs =>
    have hx : x = a := by simpa using h
    rw [← hx]
    exact List.mem_cons_self x xs

theorem capOK_nil : CapOK [] := by
  intro p hp
  simp at hp

theorem findAllGo_capOK {re : RE} (hinv : groupsInv re) :
    ∀ (fuel : Nat) (s : List Char) (caps : Caps), caps ∈ findAllGo re fuel s → CapOK caps := by
  intro fuel
  induction fuel with
  | zero => intro s caps h; simp [findAllGo] at h
  | succ fuel ih =>
    intro s caps h
    cases hh : (reMatch re s).head? with
    | none =>
      cases s with
      | nil => simp [findAllGo, hh] at h
      | cons c tl =>
        simp only [findAllGo, hh] at h
        exact ih tl caps h
    | some o =>
      have hcap : CapOK o.2 :=
        matchL_capOK _ _ hinv _ _ _ capOK_nil (mem_of_head? hh)
      by_cases hl : o.1.length < s.length
      · simp only [findAllGo, hh, hl, if_true] at h
        rcases List.mem_cons.mp h with rfl | h
        · exact hcap
        · exact ih _ _ h
      · cases s with
        | nil =>
          simp only [findAllGo, hh, hl, if_false] at h
          rcases List.mem_cons.mp h with rfl | h
          · exact hcap
          · simp at h
        | cons c tl =>
          simp only [findAllGo, hh, hl, if_false] at h
          rcases List.mem_cons.mp h with rfl | h
          · exact hcap
          · exact ih _ _ h

theorem findAll_capOK {s : List Char} {caps : Caps} (h : caps ∈ findAll flagRE s) :
    CapOK caps :=
  findAllGo_capOK groupsInv_flagRE _ _ _ h

theorem data_mk (l : List Char) : (String.mk l).data = l := rfl

/-- Dissection of an emitted token: it passed the check regex and is the text
of a capture of the flag regex, hence satisfies the capture invariant. -/
theorem parse_one_page_token {tok content : String} (h : tok ∈ parse_one_page content) :
    checkFlag tok = true ∧ ∃ v, tok = String.mk v ∧ CapVal v := by
  unfold parse_one_page at h
  rw [List.mem_dedup, List.mem_filter] at h
  obtain ⟨hmem, hchk⟩ := h
  refine ⟨hchk, ?_⟩
  obtain ⟨caps, hcaps, htok⟩ := mem_lflat.mp hmem
  obtain ⟨i, hi, htok⟩ := List.mem_map.mp htok
  have hcapok : CapOK caps := findAll_capOK hcaps
  cases hv : capsLookup caps i with
  | none =>
    rw [← htok] at hchk
    rw [groupStr, hv] at hchk
    exact absurd hchk (by decide)
  | some v =>
    refine ⟨v, ?_, ?_⟩
    · rw [← htok, groupStr, hv]
    · unfold capsLookup at hv
      cases hf : caps.find? (fun p => p.1 == i) with
      | none => rw [hf] at hv; simp at hv
      | some p =>
        rw [hf] at hv
        simp only [Option.map_some'] at hv
        obtain rfl : p.2 = v := by simpa using hv
        exact hcapok p (List.mem_of_find?_eq_some hf)

theorem clsAll_dot_star {g : Bool} : clsAll dotChar (.star g (.cls dotChar)) := by
  intro c hc
  exact hc

/-- Soundness of the check regex: an accepted string has a `[\w#\?]`
character preceded only by non-newline characters, or begins with `--`. -/
theorem checkFlag_sound (tok : String) (h : checkFlag tok = true) :
    (∃ t1 c t2, tok.data = t1 ++ c :: t2 ∧ (∀ x ∈ t1, x ≠ '\n') ∧ whqChar c = true) ∨
    (∃ rest, tok.data = '-' :: '-' :: rest) := by
  unfold checkFlag reMatchb at h
  have hne : reMatch checkRE tok.data ≠ [] := by
    intro he
    rw [he] at h
    simp at h
  obtain ⟨o, ho⟩ := List.exists_mem_of_ne_nil _ hne
  unfold reMatch at ho
  obtain ⟨g0, hg0, hor⟩ := matchL_alt_elim ho
  rcases hor with hb1 | hb2
  · left
    obtain ⟨g1, m1, hg1, hm1, hrest⟩ := matchL_seq_elim hb1
    obtain ⟨t1, ht1, ht1p⟩ :=
      matchL_consumed g1 _ clsAll_dot_star tok.data [] m1 hm1
    obtain ⟨g2, m2, hg2, hm2, _⟩ := matchL_seq_elim hrest
    obtain ⟨g3, m3, hg3, hm3, _⟩ := matchL_seq_elim hm2
    obtain ⟨c, r, hcr, hwc, _⟩ := matchL_cls_elim hm3
    refine ⟨t1, c, r, ?_, ?_, hwc⟩
    · rw [ht1, hcr]
    · intro x hx
      have := ht1p x hx
      simpa [dotChar, bne_iff_ne] using this
  · right
    obtain ⟨g1, m1, hg1, hm1, hrest⟩ := matchL_seq_elim hb2
    obtain ⟨c1, r1, hcr1, hc1, rfl⟩ := matchL_cls_elim hm1
    obtain ⟨c2, r2, hcr2, hc2, _⟩ := matchL_cls_elim hrest
    refine ⟨r2, ?_⟩
    rw [hcr1]
    simp only [List.cons.injEq]
    refine ⟨by simpa using hc1, ?_⟩
    have hcr2' : r1 = c2 :: r2 := hcr2
    rw [hcr2']
    simp only [List.cons.injEq]
    exact ⟨by simpa using hc2, trivial⟩

/-- C3 counterexample: on input " -_" the tokenizer emits the token "-_",
which contains the underscore character, a character that is neither a
letter, digit, `#`, `?`, hyphen nor plus — so the claimed token grammar is
violated by an emitted token. -/
theorem C3_counterexample :
    ("-_" ∈ parse_one_page " -_") ∧ ('_' ∈ "-_".data) ∧
      ¬('_'.isAlpha ∨ '_'.isDigit ∨ '_' = '#' ∨ '_' = '?' ∨ '_' = '-' ∨ '_' = '+') := by
  refine ⟨by decide, by decide, by decide⟩

/-- C3 (amended): every token emitted by the tokenizer `parse_one_page`
begins with a hyphen or a plus sign (one or two hyphens in the prose
context, whose follow set moreover includes the underscore, and arbitrary
non-space characters in the bracket context), contains no space character,
and no emitted token is the bare single hyphen "-". -/
theorem C3_token_shape_amended :
    ∀ (content tok : String), tok ∈ parse_one_page content →
      (∃ c rest, tok.data = c :: rest ∧ (c = '-' ∨ c = '+')) ∧
      (∀ c ∈ tok.data, c ≠ ' ') ∧ tok ≠ "-" := by
  intro content tok h
  obtain ⟨hchk, v, rfl, hcv⟩ := parse_one_page_token h
  refine ⟨?_, ?_, ?_⟩
  · obtain ⟨c, t, hv, hdp⟩ := hcv.1
    exact ⟨c, t, by rw [data_mk, hv], hdp⟩
  · intro c hc
    exact hcv.2 c (by rwa [data_mk] at hc)
  · intro he
    rw [he] at hchk
    exact absurd hchk (by decide)

/-- C3 witness: the token "-a" emitted on input " -a" has the amended shape. -/
theorem C3_witness :
    ("-a" ∈ parse_one_page " -a") ∧
      ((∃ c rest, "-a".data = c :: rest ∧ (c = '-' ∨ c = '+')) ∧
        (∀ c ∈ "-a".data, c ≠ ' ') ∧ "-a" ≠ "-") :=
  ⟨by decide, C3_token_shape_amended " -a" "-a" (by decide)⟩

/-- C2 counterexample: on input " ---" the tokenizer emits "---", a
candidate consisting solely of punctuation with no alphanumeric, `#` or `?`
character, and different from the bare marker "--" — so the claimed
acceptance filter is violated. -/
theorem C2_counterexample :
    ("---" ∈ parse_one_page " ---") ∧
      (∀ c ∈ "---".data, ¬(c.isAlphanum ∨ c = '#' ∨ c = '?')) ∧ "---" ≠ "--" := by
  refine ⟨by decide, by decide, by decide⟩

/-- C2 (amended): every candidate emitted by the tokenizer `parse_one_page`
either contains — before any newline character — at least one character that
is a letter, digit, underscore, `#` or `?`, or else begins with the
two-character long-option prefix "--" (the check regex is an anchored prefix
match, so all-punctuation candidates starting with "--", such as "---", are
accepted as well as the bare marker "--"). -/
theorem C2_token_filter_amended :
    ∀ (content tok : String), tok ∈ parse_one_page content →
      (∃ t1 c t2, tok.data = t1 ++ c :: t2 ∧ (∀ x ∈ t1, x ≠ '\n') ∧
        (c.isAlpha ∨ c.isDigit ∨ c = '_' ∨ c = '#' ∨ c = '?')) ∨
      (∃ rest, tok.data = '-' :: '-' :: rest) := by
  intro content tok h
  rcases checkFlag_sound tok (parse_one_page_token h).1 with ⟨t1, c, t2, hd, hnl, hwc⟩ | hr
  · left
    refine ⟨t1, c, t2, hd, hnl, ?_⟩
    have := hwc
    simp only [whqChar, wordChar, Bool.or_eq_true, beq_iff_eq] at this
    tauto
  · right
    exact hr

/-- C2 witness: the token "-a" emitted on input " -a" satisfies the amended
filter property. -/
theorem C2_witness :
    ("-a" ∈ parse_one_page " -a") ∧
      ((∃ t1 c t2, "-a".data = t1 ++ c :: t2 ∧ (∀ x ∈ t1, x ≠ '\n') ∧
        (c.isAlpha ∨ c.isDigit ∨ c = '_' ∨ c = '#' ∨ c = '?')) ∨
      (∃ rest, "-a".data = '-' :: '-' :: rest)) :=
  ⟨by decide, C2_token_filter_amended " -a" "-a" (by decide)⟩

/-- C4: the tokenizer `parse_one_page` is a pure, deterministic function, so
at set granularity two invocations on identical input yield equal token
sets, and the empty input yields the empty set. -/
theorem C4_tokenizer_deterministic :
    (∀ s t : String, s = t → (parse_one_page s).toFinset = (parse_one_page t).toFinset) ∧
      parse_one_page "" = [] := by
  constructor
  · intro s t h
    rw [h]
  · decide

/-- C4 witness: instantiation at a concrete input, plus the empty input. -/
theorem C4_witness :
    (parse_one_page "x -a").toFinset = (parse_one_page "x -a").toFinset ∧
      parse_one_page "" = [] :=
  ⟨C4_tokenizer_deterministic.1 "x -a" "x -a" rfl, C4_tokenizer_deterministic.2⟩

/-- `re` contains no capture group. -/
def noGroups : RE → Prop
  | .cls _ => True
  | .eps => True
  | .seq a b => noGroups a ∧ noGroups b
  | .alt a b => noGroups a ∧ noGroups b
  | .star _ a => noGroups a
  | .group _ _ => False

theorem matchL_noGroups :
    ∀ (f : Nat) (re : RE), noGroups re → ∀ (s : List Char) (caps : Caps)
      (o : List Char × Caps), o ∈ matchL f re s caps → o.2 = caps := by
  intro f
  induction f using Nat.strong_induction_on with
  | _ f ih =>
    intro re hng s caps o ho
    match re with
    | .cls q =>
      obtain ⟨c, rest, rfl, hpc, rfl⟩ := matchL_cls_elim ho
      rfl
    | .eps => rw [matchL_eps_elim ho]
    | .seq a b =>
      obtain ⟨g, m, rfl, hma, hmb⟩ := matchL_seq_elim ho
      rw [ih g (Nat.lt_succ_self g) b hng.2 _ _ _ hmb,
          ih g (Nat.lt_succ_self g) a hng.1 _ _ _ hma]
    | .alt a b =>
      obtain ⟨g, rfl, hor⟩ := matchL_alt_elim ho
      rcases hor with hm | hm
      · exact ih g (Nat.lt_succ_self g) a hng.1 _ _ _ hm
      · exact ih g (Nat.lt_succ_self g) b hng.2 _ _ _ hm
    | .star gr a =>
      rcases matchL_star_elim ho with rfl | ⟨g, m, rfl, hm, _, hrest⟩
      · rfl
      · rw [ih g (Nat.lt_succ_self g) (.star gr a) hng _ _ _ hrest,
            ih g (Nat.lt_succ_self g) a hng _ _ _ hm]
    | .group i a => exact absurd hng (by simp [noGroups])

theorem reSearchGo_some_elim {re : RE} :
    ∀ (fuel : Nat) (s : List Char) (o : List Char × Caps),
      reSearchGo re fuel s = some o →
      ∃ pre t, s = pre ++ t ∧ (reMatch re t).head? = some o := by
  intro fuel
  induction fuel with
  | zero => intro s o h; simp [reSearchGo] at h
  | succ fuel ih =>
    intro s o h
    cases hh : (reMatch re s).head? with
    | some o' =>
      simp only [reSearchGo, hh] at h
      obtain rfl : o' = o := by simpa using h
      exact ⟨[], s, rfl, hh⟩
    | none =>
      cases s with
      | nil => simp [reSearchGo, hh] at h
      | cons c tl =>
        simp only [reSearchGo, hh] at h
        obtain ⟨pre, t, htl, hht⟩ := ih tl o h
        exact ⟨c :: pre, t, by rw [htl]; rfl, hht⟩

theorem reSearchGo_none_elim {re : RE} :
    ∀ (fuel : Nat) (s : List Char), reSearchGo re fuel s = none → s.length < fuel →
      ∀ pre t, s = pre ++ t → reMatch re t = [] := by
  intro fuel
  induction fuel with
  | zero => intro s h hlen; omega
  | succ fuel ih =>
    intro s h hlen pre t heq
    cases hh : (reMatch re s).head? with
    | some o' => simp [reSearchGo, hh] at h
    | none =>
      have hs : reMatch re s = [] := by
        cases he : reMatch re s with
        | nil => rfl
        | cons x xs => rw [he] at hh; simp at hh
      cases pre with
      | nil =>
        have ht : t = s := by simpa using heq.symm
        rw [ht]
        exact hs
      | cons c pre' =>
        cases s with
        | nil => simp at heq
        | cons c0 tl =>
          have hc0 : c0 = c ∧ tl = pre' ++ t := by
            have := heq
            simp only [List.cons_append, List.cons.injEq] at this
            exact this
          simp only [reSearchGo, hh] at h
          exact ih tl h (by simpa using Nat.lt_of_succ_lt_succ hlen) pre' t hc0.2

theorem manSegAtHead_iff (l : List Char) :
    manSegAtHead l = true ↔
      ∃ d r, l = '/' :: 'm' :: 'a' :: 'n' :: d :: r ∧ d.isDigit = true := by
  rcases l with _ | ⟨a, _ | ⟨b, _ | ⟨c, _ | ⟨e, _ | ⟨f, r⟩⟩⟩⟩⟩ <;>
    simp [manSegAtHead]
  constructor
  · rintro ⟨⟨⟨⟨rfl, rfl⟩, rfl⟩, rfl⟩, hf⟩
    exact ⟨f, ⟨rfl, rfl, rfl, rfl, rfl⟩, hf⟩
  · rintro ⟨d, ⟨rfl, rfl, rfl, rfl, rfl⟩, hd⟩
    exact ⟨⟨⟨⟨rfl, rfl⟩, rfl⟩, rfl⟩, hd⟩

theorem hasManSeg_cons (c : Char) (rest : List Char) :
    hasManSeg (c :: rest) = (manSegAtHead (c :: rest) || hasManSeg rest) := rfl

theorem hasManSeg_iff (l : List Char) :
    hasManSeg l = true ↔
      ∃ t1 d r, l = t1 ++ '/' :: 'm' :: 'a' :: 'n' :: d :: r ∧ d.isDigit = true := by
  induction l with
  | nil =>
    simp only [hasManSeg]
    constructor
    · intro h; simp at h
    · rintro ⟨t1, d, r, ht, -⟩
      exact absurd ht (by simp)
  | cons c rest ih =>
    rw [hasManSeg_cons, Bool.or_eq_true]
    constructor
    · rintro (hh | hh)
      · obtain ⟨d, r, hl, hd⟩ := (manSegAtHead_iff _).mp hh
        exact ⟨[], d, r, by simpa using hl, hd⟩
      · obtain ⟨t1, d, r, hl, hd⟩ := ih.mp hh
        exact ⟨c :: t1, d, r, by rw [hl]; rfl, hd⟩
    · rintro ⟨t1, d, r, hl, hd⟩
      cases t1 with
      | nil =>
        left
        rw [(by simpa using hl : c :: rest = '/' :: 'm' :: 'a' :: 'n' :: d :: r)]
        exact (manSegAtHead_iff _).mpr ⟨d, r, rfl, hd⟩
      | cons c0 t1' =>
        right
        have : rest = t1' ++ '/' :: 'm' :: 'a' :: 'n' :: d :: r := by
          have := hl
          simp only [List.cons_append, List.cons.injEq] at this
          exact this.2
        exact ih.mpr ⟨t1', d, r, this, hd⟩

/-- Completeness: when a `/man<digit>` segment begins at the scan position,
the section regex matches there. -/
theorem manNum_complete {d : Char} {r : List Char} (hd : d.isDigit = true) :
    reMatch manNumRE ('/' :: 'm' :: 'a' :: 'n' :: d :: r) ≠ [] := by
  have h1 : ((r, []) : List Char × Caps) ∈ matchL 1 (.cls Char.isDigit) (d :: r) [] :=
    matchL_cls_intro hd
  have h2 : ((r, [(1, [d])]) : List Char × Caps) ∈
      matchL 2 (.group 1 (.cls Char.isDigit)) (d :: r) [] := by
    have := matchL_group_intro (i := 1) h1
    simpa using this
  have h3 : ((r, [(1, [d])]) : List Char × Caps) ∈
      matchL 3 (.seq (.group 1 (.cls Char.isDigit)) (.star true (.cls dotChar))) (d :: r) [] :=
    matchL_seq_intro h2 matchL_star_base
  have h4 : ((r, [(1, [d])]) : List Char × Caps) ∈
      matchL 5 (.seq (.cls (fun c => c == 'n'))
        (.seq (.group 1 (.cls Char.isDigit)) (.star true (.cls dotChar)))) ('n' :: d :: r) [] :=
    matchL_seq_intro (matchL_mono_mem (show 1 ≤ 4 by omega) (matchL_cls_intro (by decide)))
      (matchL_mono_mem (show 3 ≤ 4 by omega) h3)
  have h5 : ((r, [(1, [d])]) : List Char × Caps) ∈
      matchL 6 (.seq (.cls (fun c => c == 'a'))
        (.seq (.cls (fun c => c == 'n'))
          (.seq (.group 1 (.cls Char.isDigit)) (.star true (.cls dotChar)))))
        ('a' :: 'n' :: d :: r) [] :=
    matchL_seq_intro (matchL_mono_mem (show 1 ≤ 5 by omega) (matchL_cls_intro (by decide))) h4
  have h6 : ((r, [(1, [d])]) : List Char × Caps) ∈
      matchL 7 (.seq (.cls (fun c => c == 'm'))
        (.seq (.cls (fun c => c == 'a'))
          (.seq (.cls (fun c => c == 'n'))
            (.seq (.group 1 (.cls Char.isDigit)) (.star true (.cls dotChar))))))
        ('m' :: 'a' :: 'n' :: d :: r) [] :=
    matchL_seq_intro (matchL_mono_mem (show 1 ≤ 6 by omega) (matchL_cls_intro (by decide))) h5
  have h7 : ((r, [(1, [d])]) : List Char × Caps) ∈
      matchL 8 (.seq (.cls (fun c => c == '/'))
        (.seq (.cls (fun c => c == 'm'))
          (.seq (.cls (fun c => c == 'a'))
            (.seq (.cls (fun c => c == 'n'))
              (.seq (.group 1 (.cls Char.isDigit)) (.star true (.cls dotChar)))))))
        ('/' :: 'm' :: 'a' :: 'n' :: d :: r) [] :=
    matchL_seq_intro (matchL_mono_mem (show 1 ≤ 7 by omega) (matchL_cls_intro (by decide))) h6
  have h8 : ((r, [(1, [d])]) : List Char × Caps) ∈
      matchL 9 manNumRE ('/' :: 'm' :: 'a' :: 'n' :: d :: r) [] :=
    matchL_seq_intro matchL_star_base (matchL_mono_mem (show 8 ≤ 8 by omega) h7)
  have hfuel : 9 ≤ matchFuel manNumRE ('/' :: 'm' :: 'a' :: 'n' :: d :: r) := by
    unfold matchFuel
    have hsz : reSize manNumRE = 16 := rfl
    rw [hsz]
    have h1 : 2 ≤ List.length ('/' :: 'm' :: 'a' :: 'n' :: d :: r) + 2 := by omega
    have h2 : 5 ≤ List.length ('/' :: 'm' :: 'a' :: 'n' :: d :: r) + 2 + 16 := by omega
    calc 9 ≤ 2 * 5 := by omega
    _ ≤ _ := Nat.mul_le_mul h1 h2
  exact List.ne_nil_of_mem (matchL_mono_mem hfuel h8)

/-- Soundness: a match of the section regex decomposes the input around a
`/man<digit>` segment and captures exactly that digit as group 1. -/
theorem manNum_sound {s : List Char} {o : List Char × Caps}
    (ho : o ∈ reMatch manNumRE s) :
    ∃ t1 d r, s = t1 ++ '/' :: 'm' :: 'a' :: 'n' :: d :: r ∧ d.isDigit = true ∧
      o.2 = [(1, [d])] := by
  unfold reMatch at ho
  obtain ⟨g1, m1, hgf, hm1, hrest⟩ := matchL_seq_elim ho
  have hng1 : m1.2 = [] :=
    matchL_noGroups g1 _ (by constructor) s [] m1 hm1
  obtain ⟨t1, ht1, -⟩ := matchL_consumed g1 _ (clsAll_true _) s [] m1 hm1
  obtain ⟨g2, m2, hg2, hm2, hrest2⟩ := matchL_seq_elim hrest
  obtain ⟨c1, r1, hcr1x, hc1, hm2ex⟩ := matchL_cls_elim hm2
  have hcr1 : m1.1 = c1 :: r1 := hcr1x
  have hm2e : m2 = (r1, m1.2) := by rw [hm2ex]
  rw [hm2e] at hrest2
  obtain ⟨g3, m3, hg3, hm3, hrest3⟩ := matchL_seq_elim hrest2
  obtain ⟨c2, r2, hcr2x, hc2, hm3ex⟩ := matchL_cls_elim hm3
  have hcr2 : r1 = c2 :: r2 := hcr2x
  have hm3e : m3 = (r2, m1.2) := by rw [hm3ex]
  rw [hm3e] at hrest3
  obtain ⟨g4, m4, hg4, hm4, hrest4⟩ := matchL_seq_elim hrest3
  obtain ⟨c3, r3, hcr3x, hc3, hm4ex⟩ := matchL_cls_elim hm4
  have hcr3 : r2 = c3 :: r3 := hcr3x
  have hm4e : m4 = (r3, m1.2) := by rw [hm4ex]
  rw [hm4e] at hrest4
  obtain ⟨g5, m5, hg5, hm5, hrest5⟩ := matchL_seq_elim hrest4
  obtain ⟨c4, r4, hcr4x, hc4, hm5ex⟩ := matchL_cls_elim hm5
  have hcr4 : r3 = c4 :: r4 := hcr4x
  have hm5e : m5 = (r4, m1.2) := by rw [hm5ex]
  rw [hm5e] at hrest5
  obtain ⟨g6, m6, hg6, hm6, hrest6⟩ := matchL_seq_elim hrest5
  obtain ⟨g7, m7, hg7, hm7, hm6ex⟩ := matchL_group_elim hm6
  obtain ⟨c5, r5, hcr5x, hc5, hm7ex⟩ := matchL_cls_elim hm7
  have hcr5 : r4 = c5 :: r5 := hcr5x
  have hm7e : m7 = (r5, m1.2) := by rw [hm7ex]
  have hm6e : m6 = (m7.1, (1, r4.take (r4.length - m7.1.length)) :: m7.2) := hm6ex
  refine ⟨t1, c5, r5, ?_, hc5, ?_⟩
  · rw [ht1, hcr1]
    have e1 : c1 = '/' := by simpa using hc1
    have e2 : c2 = 'm' := by simpa using hc2
    have e3 : c3 = 'a' := by simpa using hc3
    have e4 : c4 = 'n' := by simpa using hc4
    rw [e1, hcr2, e2, hcr3, e3, hcr4, e4, hcr5]
  · have htake : r4.take (r4.length - m7.1.length) = [c5] := by
      rw [hm7e]
      simp only
      rw [hcr5]
      simp
    have hfin : o.2 = m6.2 :=
      matchL_noGroups g6 _ (by constructor) m6.1 m6.2 o hrest6
    rw [hfin, hm6e]
    simp only
    rw [htake, hm7e]
    simp only
    rw [hng1]

theorem pmn_some_sound {path : String} {d : String}
    (h : parse_manpage_number path = some d) :
    ∃ t1 c r, path.data = t1 ++ '/' :: 'm' :: 'a' :: 'n' :: c :: r ∧ c.isDigit = true ∧
      d = String.mk [c] := by
  unfold parse_manpage_number reSearch at h
  cases hs : reSearchGo manNumRE (path.data.length + 1) path.data with
  | none => rw [hs] at h; simp at h
  | some o =>
    rw [hs] at h
    simp only [Option.map_some', Option.some.injEq] at h
    obtain ⟨pre, t, hsp, hh⟩ := reSearchGo_some_elim _ _ _ hs
    have ho : o ∈ reMatch manNumRE t := mem_of_head? hh
    obtain ⟨t1, c, r, hteq, hcd, hcaps⟩ := manNum_sound ho
    refine ⟨pre ++ t1, c, r, ?_, hcd, ?_⟩
    · rw [hsp, hteq, List.append_assoc]
    · rw [← h, hcaps]
      rfl

theorem pmn_complete {path : String} (h : hasManSeg path.data = true) :
    ∃ d, parse_manpage_number path = some d := by
  cases hp : parse_manpage_number path with
  | some d => exact ⟨d, rfl⟩
  | none =>
    exfalso
    obtain ⟨t1, d, r, heq, hd⟩ := (hasManSeg_iff _).mp h
    unfold parse_manpage_number reSearch at hp
    have hnone : reSearchGo manNumRE (path.data.length + 1) path.data = none := by
      cases hr : reSearchGo manNumRE (path.data.length + 1) path.data with
      | none => rfl
      | some o => rw [hr] at hp; simp at hp
    exact manNum_complete hd
      (reSearchGo_none_elim _ _ hnone (by omega) t1 _ heq)

theorem pmn_none_of_no_seg {path : String} (h : hasManSeg path.data = false) :
    parse_manpage_number path = none := by
  cases hp : parse_manpage_number path with
  | none => rfl
  | some d =>
    exfalso
    obtain ⟨t1, c, r, heq, hcd, -⟩ := pmn_some_sound hp
    rw [(hasManSeg_iff path.data).mpr ⟨t1, c, r, heq, hcd⟩] at h
    simp at h

/-- C7: section-number resolution.  `parse_manpage_number` returns `none`
exactly when the path has no `/man<digit>` segment; when it returns a
section it is the digit of such a segment (the last one, by greediness); in
particular when all such segments carry the same digit, that digit is
returned.  And with no section (`group` NULL), `find_command` matches a
command row by `(command, system_id)` only. -/
theorem C7_section_number_spec :
    (∀ path : String, hasManSeg path.data = false → parse_manpage_number path = none) ∧
    (∀ (path d : String), parse_manpage_number path = some d →
      ∃ t1 c r, path.data = t1 ++ '/' :: 'm' :: 'a' :: 'n' :: c :: r ∧ c.isDigit = true ∧
        d = String.mk [c]) ∧
    (∀ path : String, hasManSeg path.data = true → ∃ d, parse_manpage_number path = some d) ∧
    (∀ (path : String) (c : Char),
      (∀ t1 c' r, path.data = t1 ++ '/' :: 'm' :: 'a' :: 'n' :: c' :: r →
        c'.isDigit = true → c' = c) →
      hasManSeg path.data = true → parse_manpage_number path = some (String.mk [c])) ∧
    (∀ (db : DB) (command : String) (os_id : Nat),
      (find_command db command none os_id).isSome = true ↔
        ∃ r ∈ db.commands, r.command = command ∧ r.system_id = os_id) := by
  refine ⟨?_, ?_, ?_, ?_, ?_⟩
  · intro path h
    exact pmn_none_of_no_seg h
  · intro path d h
    exact pmn_some_sound h
  · intro path h
    exact pmn_complete h
  · intro path c huniq hseg
    obtain ⟨d, hd⟩ := pmn_complete hseg
    obtain ⟨t1, c', r, heq, hcd, rfl⟩ := pmn_some_sound hd
    rw [hd, huniq t1 c' r heq hcd]
  · intro db command os_id
    unfold find_command
    constructor
    · intro h
      cases hf : db.commands.find? (cmdPred command none os_id) with
      | none => rw [hf] at h; simp at h
      | some rr =>
        have hmem := List.mem_of_find?_eq_some hf
        have hpred := List.find?_some hf
        simp only [cmdPred, Bool.and_eq_true, beq_iff_eq] at hpred
        exact ⟨rr, hmem, hpred.1, hpred.2⟩
    · rintro ⟨rr, hmem, hcmd, hsys⟩
      cases hf : db.commands.find? (cmdPred command none os_id) with
      | some rr' => simp [hf]
      | none =>
        exfalso
        have := List.find?_eq_none.mp hf rr hmem
        apply this
        simp only [cmdPred, Bool.and_eq_true, beq_iff_eq]
        exact ⟨hcmd, hsys⟩

/-- C7 witness: the path with a `/man1/` segment resolves to a section, the
path without one resolves to none, and the group-free lookup instance. -/
theorem C7_witness :
    (∃ d, parse_manpage_number "/usr/share/man/man1/ls.1.gz" = some d) ∧
      parse_manpage_number "/etc/hosts" = none ∧
      ((find_command emptyDB "ls" none 1).isSome = true ↔
        ∃ r ∈ emptyDB.commands, r.command = "ls" ∧ r.system_id = 1) :=
  ⟨C7_section_number_spec.2.2.1 "/usr/share/man/man1/ls.1.gz" (by decide),
   C7_section_number_spec.1 "/etc/hosts" (by decide),
   C7_section_number_spec.2.2.2.2 emptyDB "ls" 1⟩

theorem find?_append_none {p : α → Bool} {l1 : List α} (l2 : List α)
    (h : l1.find? p = none) : (l1 ++ l2).find? p = l2.find? p := by
  induction l1 with
  | nil => rfl
  | cons a l ih =>
    by_cases hp : p a = true
    · rw [List.find?_cons_of_pos _ hp] at h
      simp at h
    · rw [List.find?_cons_of_neg _ hp] at h
      rw [List.cons_append, List.find?_cons_of_neg _ hp]
      exact ih h

theorem filter_comp_false {p q : α → Bool} (h : ∀ a, q a = true → p a = false)
    (l : List α) : (l.filter q).filter p = [] := by
  induction l with
  | nil => rfl
  | cons a l ih =>
    by_cases hq : q a = true
    · rw [List.filter_cons_of_pos hq, List.filter_cons_of_neg (by simp [h a hq])]
      exact ih
    · rw [List.filter_cons_of_neg (by simpa using hq)]
      exact ih

theorem filter_comp_true {p q : α → Bool} (h : ∀ a, q a = true → p a = true)
    (l : List α) : (l.filter q).filter p = l.filter q := by
  induction l with
  | nil => rfl
  | cons a l ih =>
    by_cases hq : q a = true
    · rw [List.filter_cons_of_pos hq, List.filter_cons_of_pos (h a hq), ih]
    · rw [List.filter_cons_of_neg (by simpa using hq)]
      exact ih

/-- C9: `handle_system` is find-or-create: it always succeeds (never raises),
the repeated call with the same name returns the same id and leaves the
database unchanged, and a `system` row is inserted only when the name was
absent (only on the first call). -/
theorem C9_handle_system_find_or_create :
    ∀ (db : DB) (sys_name : String),
      ∃ i db1, handle_system db sys_name = some (i, db1) ∧
        handle_system db1 sys_name = some (i, db1) ∧
        (find_system db sys_name = some i → db1 = db) ∧
        (find_system db sys_name = none →
          db1 = { db with systems := db.systems ++ [⟨db.nextSystemId, sys_name⟩], nextSystemId := db.nextSystemId + 1 } ∧ i = db.nextSystemId) := by
  intro db name
  cases hf : db.systems.find? (fun r => r.name == name) with
  | some r =>
    have hfs : find_system db name = some r.id := by
      unfold find_system
      rw [hf]
      rfl
    refine ⟨r.id, db, ?_, ?_, fun _ => rfl, ?_⟩
    · unfold handle_system
      rw [hfs]
    · unfold handle_system
      rw [hfs]
    · intro hn
      rw [hfs] at hn
      simp at hn
  | none =>
    have hfs : find_system db name = none := by
      unfold find_system
      rw [hf]
      rfl
    have hany : db.systems.any (fun r => r.name == name) = false := by
      rw [List.any_eq_false]
      intro r hr
      simpa using List.find?_eq_none.mp hf r hr
    have hnew : (⟨db.nextSystemId, name⟩ : SystemRow).name == name := by simp
    refine ⟨db.nextSystemId,
      { db with systems := db.systems ++ [⟨db.nextSystemId, name⟩], nextSystemId := db.nextSystemId + 1 },
      ?_, ?_, ?_, fun _ => ⟨rfl, rfl⟩⟩
    · unfold handle_system
      rw [hfs]
      unfold add_system
      rw [hany]
      rfl
    · have hfind1 : (db.systems ++ [(⟨db.nextSystemId, name⟩ : SystemRow)]).find?
          (fun r => r.name == name) = some ⟨db.nextSystemId, name⟩ := by
        rw [find?_append_none _ hf]
        simp [List.find?_cons]
      unfold handle_system find_system
      simp only [hfind1]
      rfl
    · intro hs
      rw [hfs] at hs
      simp at hs

/-- The scenario of the store-idempotence test: resolve a command, attach
`-a` and `-b`, re-resolve with the same identity tuple, attach `-c`. -/
def replace_scenario (db : DB) (mn mn2 : Option String) (command : String)
    (group : Option String) (os_id : Nat) : Prop :=
  let r1 := handle_command db mn command group os_id
  let db2 := add_switch (add_switch r1.2 "-a" r1.1) "-b" r1.1
  let r2 := handle_command db2 mn2 command group os_id
  let db3 := add_switch r2.2 "-c" r2.1
  r2.1 = r1.1 ∧
    (db3.switches.filter (fun sw => sw.command_id == r1.1)).map (fun sw => sw.switch) = ["-c"]

theorem cmdPred_newRow (nid : Nat) (mn : Option String) (command : String)
    (group : Option String) (os_id : Nat) :
    cmdPred command group os_id ⟨nid, mn, command, group, os_id⟩ = true := by
  cases group <;> simp [cmdPred]

theorem beq_false_of_bne {α : Type} [BEq α] {i j : α} (h : (i != j) = true) :
    (i == j) = false := by
  cases hb : i == j with
  | false => rfl
  | true =>
    rw [bne, hb] at h
    simp at h

theorem find_command_add_switch (db : DB) (t : String) (cid : Nat) (command : String)
    (group : Option String) (os_id : Nat) :
    find_command (add_switch db t cid) command group os_id =
      find_command db command group os_id := rfl

theorem find_command_delete (db : DB) (cid : Nat) (command : String)
    (group : Option String) (os_id : Nat) :
    find_command (delete_associated_switches db cid) command group os_id =
      find_command db command group os_id := rfl

theorem switches_add_switch (db : DB) (t : String) (cid : Nat) :
    (add_switch db t cid).switches = db.switches ++ [⟨db.nextSwitchId, t, cid⟩] := rfl

theorem switches_delete (db : DB) (cid : Nat) :
    (delete_associated_switches db cid).switches =
      db.switches.filter (fun sw => sw.command_id != cid) := rfl

theorem commands_add_switch (db : DB) (t : String) (cid : Nat) :
    (add_switch db t cid).commands = db.commands := rfl

/-- After a purge and fresh insert for one command id, the switches owned by
that id are exactly the last inserted one, whatever rows were attached
before. -/
theorem scenario_switches (l : List SwitchRow) (i : Nat) (a b c : SwitchRow)
    (ha : a.command_id = i) (hb : b.command_id = i) (hc : c.command_id = i) :
    ((((l ++ [a] ++ [b]).filter (fun sw => sw.command_id != i)) ++ [c]).filter
      (fun sw => sw.command_id == i)).map (fun sw => sw.switch) = [c.switch] := by
  have hbne : ∀ x : SwitchRow, (fun sw => sw.command_id != i) x = true →
      (fun sw => sw.command_id == i) x = false := by
    intro x hx
    exact beq_false_of_bne hx
  have hfa : List.filter (fun sw => sw.command_id != i) [a] = [] := by
    simp [List.filter, ha]
  have hfb : List.filter (fun sw => sw.command_id != i) [b] = [] := by
    simp [List.filter, hb]
  have hfc : List.filter (fun sw => sw.command_id == i) [c] = [c] := by
    simp [List.filter, hc]
  have h1 : ((l ++ [a] ++ [b]).filter (fun sw => sw.command_id != i)) =
      l.filter (fun sw => sw.command_id != i) := by
    rw [List.filter_append, List.filter_append, hfa, hfb, List.append_nil, List.append_nil]
  rw [h1, List.filter_append, filter_comp_false hbne l, hfc]
  simp

/-- C1: `handle_command` has replace semantics on the identity tuple
`(command, group, system_id)`: if a row is found its switches are purged
first and its id is returned; otherwise a fresh row is inserted and its new
id returned.  Consequently, in the scenario resolve / attach `-a`,`-b` /
re-resolve / attach `-c`, both calls return the same id and the switch set
owned by that id at the end is exactly `-c`. -/
theorem C1_handle_command_replace :
    ∀ (db : DB) (mn mn2 : Option String) (command : String) (group : Option String)
      (os_id : Nat),
      (∀ i, find_command db command group os_id = some i →
        handle_command db mn command group os_id = (i, delete_associated_switches db i)) ∧
      (find_command db command group os_id = none →
        handle_command db mn command group os_id =
          (db.nextCommandId, { db with commands := db.commands ++ [⟨db.nextCommandId, mn, command, group, os_id⟩], nextCommandId := db.nextCommandId + 1 })) ∧
      replace_scenario db mn mn2 command group os_id := by
  intro db mn mn2 command group os_id
  refine ⟨?_, ?_, ?_⟩
  · intro i hi
    unfold handle_command
    rw [hi]
  · intro hn
    unfold handle_command
    rw [hn]
    rfl
  · unfold replace_scenario
    cases hf : db.commands.find? (cmdPred command group os_id) with
    | some r =>
      have hfc : find_command db command group os_id = some r.id := by
        unfold find_command
        rw [hf]
        rfl
      have h1 : handle_command db mn command group os_id =
          (r.id, delete_associated_switches db r.id) := by
        unfold handle_command
        rw [hfc]
      have hfc2 : find_command (add_switch (add_switch (delete_associated_switches db r.id)
          "-a" r.id) "-b" r.id) command group os_id = some r.id := by
        rw [find_command_add_switch, find_command_add_switch, find_command_delete]
        exact hfc
      have h2 : handle_command (add_switch (add_switch (delete_associated_switches db r.id)
          "-a" r.id) "-b" r.id) mn2 command group os_id =
          (r.id, delete_associated_switches (add_switch (add_switch
            (delete_associated_switches db r.id) "-a" r.id) "-b" r.id) r.id) := by
        unfold handle_command
        rw [hfc2]
      simp only [h1]
      simp only [h2]
      refine ⟨trivial, ?_⟩
      simp only [switches_add_switch, switches_delete]
      exact scenario_switches _ r.id _ _ _ rfl rfl rfl
    | none =>
      have hfc : find_command db command group os_id = none := by
        unfold find_command
        rw [hf]
        rfl
      have h1 : handle_command db mn command group os_id =
          (db.nextCommandId, { db with commands := db.commands ++ [⟨db.nextCommandId, mn, command, group, os_id⟩], nextCommandId := db.nextCommandId + 1 }) := by
        unfold handle_command
        rw [hfc]
        rfl
      have hfc2 : find_command (add_switch (add_switch
          ({ db with commands := db.commands ++ [⟨db.nextCommandId, mn, command, group, os_id⟩], nextCommandId := db.nextCommandId + 1 } : DB)
          "-a" db.nextCommandId) "-b" db.nextCommandId) command group os_id =
          some db.nextCommandId := by
        rw [find_command_add_switch, find_command_add_switch]
        unfold find_command
        dsimp only
        rw [find?_append_none _ hf]
        simp [List.find?_cons, cmdPred_newRow]
      have h2 : handle_command (add_switch (add_switch
          ({ db with commands := db.commands ++ [⟨db.nextCommandId, mn, command, group, os_id⟩], nextCommandId := db.nextCommandId + 1 } : DB)
          "-a" db.nextCommandId) "-b" db.nextCommandId) mn2 command group os_id =
          (db.nextCommandId, delete_associated_switches (add_switch (add_switch
            ({ db with commands := db.commands ++ [⟨db.nextCommandId, mn, command, group, os_id⟩], nextCommandId := db.nextCommandId + 1 } : DB)
            "-a" db.nextCommandId) "-b" db.nextCommandId) db.nextCommandId) := by
        unfold handle_command
        rw [hfc2]
      simp only [h1]
      simp only [h2]
      refine ⟨trivial, ?_⟩
      simp only [switches_add_switch, switches_delete]
      exact scenario_switches _ db.nextCommandId _ _ _ rfl rfl rfl

/-- A database holding one command row for `(ls, 1, 1)` with a stale switch. -/
def db1ex : DB := ⟨[], [⟨7, none, "ls", some "1", 1⟩], [⟨3, "-x", 7⟩], 1, 8, 4⟩

/-- C1 witness: the found case on `db1ex`, the not-found case on the empty
database, and the concrete replace scenario. -/
theorem C1_witness :
    handle_command db1ex (some "LS") "ls" (some "1") 1 = (7, delete_associated_switches db1ex 7) ∧
    handle_command emptyDB (some "LS") "ls" (some "1") 1 =
      (emptyDB.nextCommandId, { emptyDB with commands := emptyDB.commands ++ [⟨emptyDB.nextCommandId, some "LS", "ls", some "1", 1⟩], nextCommandId := emptyDB.nextCommandId + 1 }) ∧
    replace_scenario emptyDB (some "LS") none "ls" (some "1") 1 :=
  ⟨(C1_handle_command_replace db1ex (some "LS") none "ls" (some "1") 1).1 7 (by decide),
   (C1_handle_command_replace emptyDB (some "LS") none "ls" (some "1") 1).2.1 (by decide),
   (C1_handle_command_replace emptyDB (some "LS") none "ls" (some "1") 1).2.2⟩

/-- C9 witness: instantiation at the empty database and a concrete name. -/
theorem C9_witness :
    ∃ i db1, handle_system emptyDB "Ubuntu20.04" = some (i, db1) ∧
      handle_system db1 "Ubuntu20.04" = some (i, db1) ∧
      (find_system emptyDB "Ubuntu20.04" = some i → db1 = emptyDB) ∧
      (find_system emptyDB "Ubuntu20.04" = none →
        db1 = { emptyDB with systems := emptyDB.systems ++ [⟨emptyDB.nextSystemId, "Ubuntu20.04"⟩], nextSystemId := emptyDB.nextSystemId + 1 } ∧ i = emptyDB.nextSystemId) :=
  C9_handle_system_find_or_create emptyDB "Ubuntu20.04"

theorem bool_eq_false {b : Bool} (h : ¬b = true) : b = false := by
  cases b
  · rfl
  · exact absurd rfl h

theorem splitlinesGo_no_newline :
    ∀ (n : Nat) (s : List Char), s.length ≤ n → ∀ acc, (∀ c ∈ acc, c ≠ '\n') →
      ∀ l ∈ splitlinesGo s acc, ∀ c ∈ l, c ≠ '\n' := by
  intro n
  induction n with
  | zero =>
    intro s hs acc hacc l hl
    cases s with
    | nil =>
      simp only [splitlinesGo, List.mem_singleton] at hl
      subst hl
      intro c hc
      exact hacc c (List.mem_reverse.mp hc)
    | cons c rest => simp at hs
  | succ n ih =>
    intro s hs acc hacc l hl
    have hrev : ∀ x ∈ acc.reverse, x ≠ '\n' := by
      intro x hx
      exact hacc x (List.mem_reverse.mp hx)
    cases s with
    | nil =>
      simp only [splitlinesGo, List.mem_singleton] at hl
      subst hl
      exact hrev
    | cons c rest =>
      have hrest : rest.length ≤ n := by
        simp only [List.length_cons] at hs
        omega
      by_cases hn : (c == '\n') = true
      · cases rest with
        | nil =>
          simp only [splitlinesGo, hn, if_true, List.isEmpty_nil] at hl
          rcases List.mem_cons.mp hl with rfl | hl
          · exact hrev
          · simp at hl
        | cons d rest2 =>
          simp only [splitlinesGo, hn, if_true, List.isEmpty_cons, if_false] at hl
          rcases List.mem_cons.mp hl with rfl | hl
          · exact hrev
          · exact ih (d :: rest2) hrest [] (by simp) l hl
      · have hn' : (c == '\n') = false := bool_eq_false hn
        by_cases hr : (c == '\r') = true
        · cases rest with
          | nil =>
            simp only [splitlinesGo, hn', Bool.false_eq_true, if_false, hr, if_true,
              List.mem_singleton] at hl
            subst hl
            exact hrev
          | cons d rest2 =>
            have hrest2 : rest2.length ≤ n := by
              simp only [List.length_cons] at hs
              omega
            by_cases hd : (d == '\n') = true
            · simp only [splitlinesGo, hn', Bool.false_eq_true, if_false, hr, if_true, hd] at hl
              rcases List.mem_cons.mp hl with rfl | hl
              · exact hrev
              · by_cases he : rest2.isEmpty
                · simp [he] at hl
                · simp only [he, if_false] at hl
                  exact ih rest2 hrest2 [] (by simp) l hl
            · have hd' : (d == '\n') = false := bool_eq_false hd
              simp only [splitlinesGo, hn', Bool.false_eq_true, if_false, hr, if_true, hd'] at hl
              rcases List.mem_cons.mp hl with rfl | hl
              · exact hrev
              · exact ih (d :: rest2) hrest [] (by simp) l hl
        · have hr' : (c == '\r') = false := bool_eq_false hr
          have hcn : c ≠ '\n' := by
            intro he
            rw [he] at hn'
            simp at hn'
          cases rest with
          | nil =>
            simp only [splitlinesGo, hn', hr', Bool.false_eq_true, if_false] at hl
            refine ih [] (by simp) (c :: acc) ?_ l hl
            intro x hx
            rcases List.mem_cons.mp hx with rfl | hx
            · exact hcn
            · exact hacc x hx
          | cons d rest2 =>
            simp only [splitlinesGo, hn', hr', Bool.false_eq_true, if_false] at hl
            refine ih (d :: rest2) hrest (c :: acc) ?_ l hl
            intro x hx
            rcases List.mem_cons.mp hx with rfl | hx
            · exact hcn
            · exact hacc x hx

theorem builtinHeadMatch_chars {line w : String} (h : builtinHeadMatch line = some w) :
    ∀ c ∈ w.data, identChar c = true := by
  unfold builtinHeadMatch at h
  cases hh : (reMatch builtinRE line.data).head? with
  | none => rw [hh] at h; simp at h
  | some o =>
    rw [hh] at h
    simp only [Option.map_some', Option.some.injEq] at h
    have ho : o ∈ reMatch builtinRE line.data := mem_of_head? hh
    unfold reMatch builtinRE at ho
    obtain ⟨g1, m1, hg1, hm1, hrest⟩ := matchL_seq_elim ho
    have hng1 : m1.2 = [] := by
      refine matchL_noGroups g1 _ ?_ line.data [] m1 hm1
      simp [sp68, noGroups, spCls, reOpt]
    obtain ⟨g2, m2, hg2, hm2, hoe⟩ := matchL_group_elim hrest
    have hclsb : clsAll identChar (rePlus true (.cls identChar)) := by
      exact ⟨fun c hc => hc, fun c hc => hc⟩
    obtain ⟨t, hts, htp⟩ := matchL_consumed g2 _ hclsb m1.1 m1.2 m2 hm2
    have htake : m1.1.take (m1.1.length - m2.1.length) = t := by
      rw [hts]
      have hlen : (t ++ m2.1).length - m2.1.length = t.length := by simp
      rw [hlen]
      exact take_append_self t m2.1
    have hng2 : m2.2 = m1.2 := by
      refine matchL_noGroups g2 _ ?_ m1.1 m1.2 m2 hm2
      exact ⟨trivial, trivial⟩
    have hcapval : capsLookup o.2 1 = some t := by
      rw [hoe]
      simp only [capsLookup]
      rw [htake]
      simp [List.find?_cons]
    have hw : w.data = t := by
      rw [← h]
      unfold groupStr
      rw [hcapval]
    rw [hw]
    exact htp

theorem identChar_ne_newline {c : Char} (h : identChar c = true) : c ≠ '\n' := by
  intro he
  rw [he] at h
  simp [identChar] at h

theorem mem_dictSet {d : List (String × String)} {k v : String} {kv : String × String}
    (h : kv ∈ dictSet d k v) : kv ∈ d ∨ kv = (k, v) := by
  unfold dictSet at h
  by_cases ha : d.any (fun p => p.1 == k)
  · rw [if_pos ha] at h
    obtain ⟨p, hp, he⟩ := List.mem_map.mp h
    by_cases hk : (p.1 == k) = true
    · rw [if_pos hk] at he
      right
      exact he.symm
    · rw [if_neg hk] at he
      left
      rw [← he]
      exact hp
  · rw [if_neg ha] at h
    rcases List.mem_append.mp h with h | h
    · left
      exact h
    · right
      simpa using h

theorem mem_of_dictGet {d : List (String × String)} {k v : String}
    (h : dictGet d k = some v) : ∃ k0, (k0, v) ∈ d := by
  unfold dictGet at h
  cases hf : d.find? (fun p => p.1 == k) with
  | none => rw [hf] at h; simp at h
  | some p =>
    rw [hf] at h
    simp only [Option.map_some', Option.some.injEq] at h
    refine ⟨p.1, ?_⟩
    have := List.mem_of_find?_eq_some hf
    rw [← h]
    simpa using this

/-- No value of the accumulated state contains a newline. -/
def mansOK (st : BashState) : Prop :=
  (∀ kv ∈ st.mans, ∀ c ∈ kv.2.data, c ≠ '\n') ∧ (∀ c ∈ st.bashMan.data, c ≠ '\n')

theorem getD_no_newline {st : BashState} (h : mansOK st) (k : String) :
    ∀ c ∈ ((dictGet st.mans k).getD "").data, c ≠ '\n' := by
  cases hg : dictGet st.mans k with
  | none => simp
  | some v =>
    obtain ⟨k0, hk0⟩ := mem_of_dictGet hg
    simpa using h.1 (k0, v) hk0

theorem bashStep_mansOK (cl : List String) (st : BashState) (line : String)
    (hst : mansOK st) (hline : ∀ c ∈ line.data, c ≠ '\n') :
    mansOK (bashStep cl st line) := by
  unfold bashStep
  by_cases h0 : st.stopped = true
  · rw [if_pos h0]
    exact hst
  · rw [if_neg h0]
    by_cases h1 : (!st.builtinsFlag) = true
    · rw [if_pos h1]
      by_cases h2 : (line == "SHELL BUILTIN COMMANDS") = true
      · rw [if_pos h2]
        refine ⟨?_, hst.2⟩
        intro kv hkv
        rcases mem_dictSet hkv with hkv | rfl
        · exact hst.1 kv hkv
        · exact hst.2
      · rw [if_neg h2]
        refine ⟨hst.1, ?_⟩
        intro c hc
        rw [String.data_append] at hc
        rcases List.mem_append.mp hc with hc | hc
        · exact hst.2 c hc
        · exact hline c hc
    · rw [if_neg h1]
      cases hm : builtinHeadMatch line with
      | some w =>
        dsimp only
        by_cases hw : cl.contains w = true
        · rw [if_pos hw]
          refine ⟨?_, hst.2⟩
          intro kv hkv
          rcases mem_dictSet hkv with hkv | rfl
          · exact hst.1 kv hkv
          · intro c hc
            exact identChar_ne_newline (builtinHeadMatch_chars hm c hc)
        · rw [if_neg hw]
          by_cases hc0 : (st.currentBuiltin != "") = true
          · rw [if_pos hc0]
            refine ⟨?_, hst.2⟩
            intro kv hkv
            rcases mem_dictSet hkv with hkv | rfl
            · exact hst.1 kv hkv
            · intro c hc
              rw [String.data_append] at hc
              rcases List.mem_append.mp hc with hc | hc
              · exact getD_no_newline hst _ c hc
              · exact hline c hc
          · rw [if_neg hc0]
            exact hst
      | none =>
        dsimp only
        by_cases hsec : sectionEndMatch line = true
        · rw [if_pos hsec]
          exact hst
        · rw [if_neg hsec]
          by_cases hc0 : (st.currentBuiltin != "") = true
          · rw [if_pos hc0]
            refine ⟨?_, hst.2⟩
            intro kv hkv
            rcases mem_dictSet hkv with hkv | rfl
            · exact hst.1 kv hkv
            · intro c hc
              rw [String.data_append] at hc
              rcases List.mem_append.mp hc with hc | hc
              · exact getD_no_newline hst _ c hc
              · exact hline c hc
          · rw [if_neg hc0]
            exact hst

theorem foldl_mansOK (cl : List String) :
    ∀ (lines : List String) (st : BashState), mansOK st →
      (∀ l ∈ lines, ∀ c ∈ String.data l, c ≠ '\n') →
      mansOK (lines.foldl (bashStep cl) st) := by
  intro lines
  induction lines with
  | nil => intro st h _; exact h
  | cons l lines ih =>
    intro st h hl
    rw [List.foldl_cons]
    exact ih _ (bashStep_mansOK cl st l h (hl l (List.mem_cons_self _ _)))
      (fun l' hl' => hl l' (List.mem_cons_of_mem _ hl'))

/-- C10: the Builtin Splitter accumulates the umbrella buffer and every
sub-document buffer by plain string concatenation of `splitlines` lines with
no separator, so no emitted sub-document text contains a newline
character. -/
theorem C10_no_newline_in_subdocuments :
    ∀ (content : String) (cl : List String) (kv : String × String),
      kv ∈ parse_bash_page_mans content cl → ∀ c ∈ kv.2.data, c ≠ '\n' := by
  intro content cl kv hkv
  unfold parse_bash_page_mans at hkv
  have hlines : ∀ l ∈ (splitlines content.data).map (fun l => String.mk l),
      ∀ c ∈ String.data l, c ≠ '\n' := by
    intro l hl
    obtain ⟨l0, hl0, rfl⟩ := List.mem_map.mp hl
    intro c hc
    unfold splitlines at hl0
    by_cases he : content.data.isEmpty
    · rw [if_pos he] at hl0
      simp at hl0
    · rw [if_neg he] at hl0
      exact splitlinesGo_no_newline content.data.length content.data (le_refl _) []
        (by simp) l0 hl0 c hc
  have hall := foldl_mansOK cl ((splitlines content.data).map (fun l => String.mk l))
    bashInit ⟨by simp [bashInit], by simp [bashInit]⟩ hlines
  exact hall.1 kv hkv

/-- C10 witness: the umbrella buffer of a two-line preamble has no newline. -/
theorem C10_witness :
    (("pre1pre2" : String).data.all (fun c => c != '\n')) = true := by
  have h := C10_no_newline_in_subdocuments "pre1\npre2\nSHELL BUILTIN COMMANDS" []
    ("bash", "pre1pre2") (by decide)
  rw [List.all_eq_true]
  intro c hc
  simpa [bne_iff_ne] using h c hc

/-- A composite bash manual page: a preamble, the builtins header, two known
builtins with description lines, a following all-caps section, and material
after it. -/
def bashDoc : String :=
  "BASH(1) General Commands Manual\nbash - GNU Bourne-Again SHell\nSHELL BUILTIN COMMANDS\n       cd [-L|-P] [dir]\n              Change the current directory to dir.\n       echo [-neE] [arg ...]\n              Output the args.\nREADLINE\n       cd -x ignored after the break\n"

/-- C5: on `bashDoc` with known names `cd` and `echo`, the Builtin Splitter
produces exactly the three sub-documents `bash`, `cd`, `echo`; `cd`'s
document is built only from material of the region between its header line
and `echo`'s header line (the seed `cd` from the header plus the description
line); and nothing at or after the `READLINE` header contributes to any
sub-document. -/
theorem C5_bash_partition :
    parse_bash_page_mans bashDoc ["cd", "echo"] =
      [("bash", "BASH(1) General Commands Manualbash - GNU Bourne-Again SHell"),
       ("cd", "cd              Change the current directory to dir."),
       ("echo", "echo              Output the args.")] ∧
    (parse_bash_page_mans bashDoc ["cd", "echo"]).map Prod.fst = ["bash", "cd", "echo"] ∧
    dictGet (parse_bash_page_mans bashDoc ["cd", "echo"]) "cd" =
      some "cd              Change the current directory to dir." := by
  refine ⟨by decide, by decide, by decide⟩

/-- C6 counterexample: at the builtin header line "      cd -L extra" the
new sub-document's initial buffer is the identifier "cd", not the full text
of the line, refuting the claim that the line itself seeds the buffer. -/
theorem C6_counterexample :
    dictGet (parse_bash_page_mans "SHELL BUILTIN COMMANDS\n      cd -L extra" ["cd"]) "cd" =
        some "cd" ∧
      ("cd" : String) ≠ "      cd -L extra" := by
  refine ⟨by decide, by decide⟩

/-- C6 (amended): in the scanning state, when a line indented by 6-8 spaces
starts with an identifier that is in the known-command-name set, that
identifier becomes the active sub-document key and the identifier itself
(the first word, not the full line) is the initial content of the new
sub-document's buffer. -/
theorem C6_builtin_seed_amended :
    ∀ (cl : List String) (st : BashState) (line w : String),
      st.stopped = false → st.builtinsFlag = true →
      builtinHeadMatch line = some w → cl.contains w = true →
      bashStep cl st line = { st with currentBuiltin := w, mans := dictSet st.mans w w } := by
  intro cl st line w h0 h1 hm hw
  unfold bashStep
  rw [h0, h1]
  simp only [Bool.false_eq_true, if_false, Bool.not_true, hm]
  rw [if_pos hw]

/-- C6 witness: a concrete scanning state and header line. -/
theorem C6_witness :
    bashStep ["cd"] ⟨true, "", "pre", [("bash", "pre")], false⟩ "      cd -L" =
      { (⟨true, "", "pre", [("bash", "pre")], false⟩ : BashState) with
        currentBuiltin := "cd", mans := dictSet [("bash", "pre")] "cd" "cd" } :=
  C6_builtin_seed_amended ["cd"] ⟨true, "", "pre", [("bash", "pre")], false⟩ "      cd -L" "cd"
    rfl rfl (by decide) (by decide)

/-- C8: when a page is an indirection stub whose content is `.so` with no
target reference (no space-separated tail anywhere in the content), the
redirection handling of `parse_man_pages` does not fall back to the stub's
own content: `new_file` stays `None` and line 494's `re.match` on `None`
raises TypeError, aborting the run. -/
theorem C8_so_redirect_type_error :
    so_redirect "/usr/share/man/man1/ls.1.gz" ".so" =
      .error "TypeError: expected string or buffer" := by
  rfl
